import Mathlib

/-!
Verification of the evolutionary C-code optimizer (src/main.py, src/optimizer.py,
src/compiler.py) against its natural-language specification.

The Python source is shallowly embedded:
  * the text-rewrite rules of compiler.py operate on `List Char`
    (Python strings), with the specific regular expressions of the source
    implemented as deterministic scanners (the patterns involved are
    backtracking-free, see the comments at each scanner);
  * `random.choice`, gcc invocations and timed process execution are modelled
    as explicit oracle streams in an `Env`, consumed through counters in a
    `World` record that also logs file-system effects (files written, files
    deleted);
  * Python floats appear in exactly one place reachable from integer inputs,
    `eval("d1/d2")` inside constant folding; `int()` of that IEEE-754 binary64
    true division is modelled exactly over ℕ/ℤ (round-half-even at 53 bits);
  * wall-clock times are rationals, an infinite-fitness sentinel is `⊤` in
    `WithTop ℚ`.
-/

/-! ### Character classes and basic string helpers (Python semantics) -/

/-- Python regex `\w`: `[a-zA-Z0-9_]`. -/
def isWordChar (c : Char) : Bool := c.isAlphanum || c = '_'

/-- Python regex `\d`: `[0-9]`. -/
def isDigitChar (c : Char) : Bool := c.isDigit

/-- Python whitespace (`\s` and `str.strip`): space, tab, newline, CR, VT, FF. -/
def isPyWs (c : Char) : Bool :=
  c = ' ' || c = '\t' || c = '\n' || c = '\r' || c = '\x0b' || c = '\x0c'

/-- First character of a C identifier in the source's patterns: `[a-zA-Z_]`. -/
def isIdentStart (c : Char) : Bool := c.isAlpha || c = '_'

/-- Python `str.strip()`: drop leading and trailing whitespace. -/
def pyStrip (s : List Char) : List Char :=
  ((s.dropWhile isPyWs).reverse.dropWhile isPyWs).reverse

/-- Python `str.lstrip()`: drop leading whitespace. -/
def pyLstrip (s : List Char) : List Char := s.dropWhile isPyWs

/-- Python `str.split('\n')`. `''.split('\n') == ['']`. -/
def splitNl : List Char → List (List Char)
  | [] => [[]]
  | c :: rest =>
    if c = '\n' then [] :: splitNl rest
    else
      match splitNl rest with
      | [] => [[c]]
      | l :: ls => (c :: l) :: ls

/-- Python `'\n'.join(lines)`. -/
def joinNl (ls : List (List Char)) : List Char := List.intercalate ['\n'] ls

/-- Python `pat in s` (substring containment). -/
def hasSubstr (s pat : List Char) : Bool :=
  match s with
  | [] => pat.isPrefixOf ([] : List Char)
  | _ :: rest => pat.isPrefixOf s || hasSubstr rest pat

/-- Python `s.startswith(pat)`. -/
def startsWithSub (s pat : List Char) : Bool := pat.isPrefixOf s

/-- Python `s.count(c)` for a single character. -/
def countChar (s : List Char) (c : Char) : ℕ := s.count c

/-- Python `s.replace(pat, rep)`: replace all non-overlapping occurrences,
left to right.  `fuel` bounds the recursion; every step consumes at least one
character when `pat` is nonempty, so `fuel = s.length` is always enough. -/
def replaceAllF (fuel : ℕ) (s pat rep : List Char) : List Char :=
  match fuel, s with
  | 0, s => s
  | _ + 1, [] => []
  | f + 1, c :: rest =>
    if pat ≠ [] ∧ pat.isPrefixOf (c :: rest) then
      rep ++ replaceAllF f ((c :: rest).drop pat.length) pat rep
    else
      c :: replaceAllF f rest pat rep

/-- Python `s.replace(pat, rep)` for nonempty `pat`. -/
def replaceAllSub (s pat rep : List Char) : List Char :=
  replaceAllF s.length s pat rep

/-- Whole-word substitution: Python `re.sub(r'\b' + name + r'\b', rep, s)`
for a `name` that consists of word characters.  An occurrence of `name` is
replaced iff the preceding character (`prev`) and the following character are
not word characters.  Scans left to right, non-overlapping. -/
def wordSubF (fuel : ℕ) (prev : Option Char) (s name rep : List Char) : List Char :=
  match fuel, s with
  | 0, s => s
  | _ + 1, [] => []
  | f + 1, c :: rest =>
    let boundaryL : Bool := match prev with
      | none => true
      | some p => !isWordChar p
    let boundaryR : Bool := match (c :: rest).drop name.length with
      | [] => true
      | d :: _ => !isWordChar d
    if name ≠ [] ∧ boundaryL ∧ name.isPrefixOf (c :: rest) ∧ boundaryR then
      rep ++ wordSubF f (name.getLast?) ((c :: rest).drop name.length) name rep
    else
      c :: wordSubF f (some c) rest name rep

/-- Whole-word substitution of identifier `name` by `rep` in `s`. -/
def wordSub (s name rep : List Char) : List Char :=
  wordSubF s.length none s name rep

/-- Digits (most significant first) to a natural number. -/
def natOfDigits (ds : List Char) : ℕ :=
  ds.foldl (fun n c => 10 * n + (c.toNat - 48)) 0

/-- Decimal rendering of an integer, as Python `f"{v}"`. -/
def intChars (v : ℤ) : List Char := (toString v).toList

/-- Decimal rendering of a natural number. -/
def natChars (n : ℕ) : List Char := (toString n).toList

/-- Remove every whitespace character: Python `re.sub(r'\s+', '', s)`. -/
def removeWs (s : List Char) : List Char := s.filter (fun c => !isPyWs c)

/-- Collapse each whitespace run to a single space:
Python `re.sub(r'\s+', ' ', s)`. -/
def collapseWs : List Char → List Char
  | [] => []
  | c :: rest =>
    if isPyWs c then ' ' :: collapseWs (rest.dropWhile isPyWs)
    else c :: collapseWs rest
termination_by s => s.length
decreasing_by
  · simp only [List.length_cons]
    exact Nat.lt_succ_of_le (List.dropWhile_suffix _).length_le
  · simp

/-! ### Python `int(d1 / d2)` for natural operands (compiler.py line 81-82)

`eval("d1/d2")` performs Python true division of two ints: the exact rational
`d1/d2` correctly rounded to an IEEE-754 binary64, raising `ZeroDivisionError`
for `d2 = 0` and `OverflowError` when the rounded value would be `≥ 2^1024`;
`int()` then truncates toward zero.  For non-negative operands truncation is
floor.  We model the composition `int(d1 / d2)` exactly, over ℕ/ℤ only:
round-half-even of `d1/d2` at 53 significant bits, then floor.  (Rounding in
the subnormal regime is coarser in IEEE-754 than in this model, but both give
values in the same unit interval `[0,1)`, so `int()` of either is `0`.) -/

/-- Fuelled floor of `log₂`: `floorLog2F f n` is `⌊log₂ n⌋` whenever
`1 ≤ n ≤ f`. -/
def floorLog2F : ℕ → ℕ → ℕ
  | 0, _ => 0
  | f + 1, n => if n < 2 then 0 else floorLog2F f (n / 2) + 1

/-- Floor of `log₂ n` for `n ≥ 1`. -/
def floorLog2 (n : ℕ) : ℕ := floorLog2F n n

/-- The binade of the positive rational `a / b`: the unique `e : ℤ` with
`2^e ≤ a/b < 2^(e+1)` (for `a, b ≥ 1`). -/
def binadeOf (a b : ℕ) : ℤ :=
  if b ≤ a then (floorLog2 (a / b) : ℤ)
  else -((floorLog2 ((b - 1) / a) + 1 : ℕ) : ℤ)

/-- Round the rational `num / den` (`den ≠ 0`) to the nearest integer,
ties to even. -/
def rheNat (num den : ℕ) : ℕ :=
  let q := num / den
  let r := num % den
  if 2 * r < den then q
  else if den < 2 * r then q + 1
  else if q % 2 = 0 then q else q + 1

/-- Python `int(a / b)` for ints `a, b ≥ 0`: correctly rounded binary64 true
division followed by truncation; `none` models `ZeroDivisionError` (`b = 0`)
and `OverflowError` (rounded quotient `≥ 2^1024`). -/
def pyIntTrueDiv (a b : ℕ) : Option ℤ :=
  if b = 0 then none
  else if a = 0 then some 0
  else
    let e : ℤ := binadeOf a b
    -- significand: a/b * 2^(52-e), rounded half-even; lies in [2^52, 2^53]
    let m : ℕ :=
      if e ≤ 52 then rheNat (a * 2 ^ (52 - e).toNat) b
      else rheNat a (b * 2 ^ (e - 52).toNat)
    -- rounded value is m * 2^(e-52); overflow iff it is ≥ 2^1024
    if 2 ^ 1076 ≤ m * 2 ^ e.toNat then none
    else if e ≤ 52 then some (m / 2 ^ (52 - e).toNat : ℕ)
    else some (m * 2 ^ (e - 52).toNat : ℕ)

/-! ### compiler.py: `apply_constant_folding` (lines 65-89) -/

/-- Arithmetic operators matched by the folding pattern. -/
def isFoldOp (c : Char) : Bool := c = '+' || c = '-' || c = '*' || c = '/'

/-- The inner guard `re.match(r'^\d+[\+\-\*\/]\d+$', expr)` (line 80) on the
whitespace-free expression, returning the two literals and the operator. -/
def parseSimpleExpr (s : List Char) : Option (ℕ × Char × ℕ) :=
  let d1 := s.takeWhile isDigitChar
  let rest := s.dropWhile isDigitChar
  if d1 = [] then none
  else
    match rest with
    | [] => none
    | op :: rest2 =>
      if isFoldOp op then
        let d2 := rest2.takeWhile isDigitChar
        let rest3 := rest2.dropWhile isDigitChar
        if d2 ≠ [] ∧ rest3 = [] then some (natOfDigits d1, op, natOfDigits d2)
        else none
      else none

/-- Python `int(eval(expr))` for `expr = "<a><op><b>"`: `+`, `-`, `*` are exact
int arithmetic; `/` is float true division then truncation.  `none` models a
raised exception (caught by the bare `except` on line 83). -/
def pyEvalFold (a : ℕ) (op : Char) (b : ℕ) : Option ℤ :=
  if op = '+' then some ((a : ℤ) + b)
  else if op = '-' then some ((a : ℤ) - b)
  else if op = '*' then some ((a : ℤ) * b)
  else if op = '/' then pyIntTrueDiv a b
  else none

/-- The `re.sub` callback `replace_expression` (lines 71-86): `g1, g2, g3` are
`match.group(1..3)` and `whole = match.group(0)`.  The expression is stripped
of whitespace, re-matched against `^\d+[\+\-\*\/]\d+$`, and evaluated; any
evaluation failure returns the match unchanged. -/
def replace_expression (g1 g2 g3 whole : List Char) : List Char :=
  let expr := removeWs g2
  match parseSimpleExpr expr with
  | none => whole
  | some (a, op, b) =>
    match pyEvalFold a op b with
    | none => whole
    | some v => g1 ++ intChars v ++ g3

/-- Deterministic matcher for `(\w+\s*=\s*)(\d+\s*[\+\-\*\/]\s*\d+)(\s*;)` at
the head of `s`.  None of the subpatterns can backtrack usefully (`\w`, `\s`,
`\d`, `=`, the operators and `;` are pairwise disjoint character classes), so
greedy maximal munch is exact.  Returns the three groups and the rest. -/
def matchFoldAt (s : List Char) : Option ((List Char × List Char × List Char) × List Char) :=
  let w := s.takeWhile isWordChar
  let r1 := s.dropWhile isWordChar
  if w = [] then none
  else
    let ws1 := r1.takeWhile isPyWs
    let r2 := r1.dropWhile isPyWs
    match r2 with
    | '=' :: r3 =>
      let ws2 := r3.takeWhile isPyWs
      let r4 := r3.dropWhile isPyWs
      let d1 := r4.takeWhile isDigitChar
      let r5 := r4.dropWhile isDigitChar
      if d1 = [] then none
      else
        let ws3 := r5.takeWhile isPyWs
        let r6 := r5.dropWhile isPyWs
        match r6 with
        | op :: r7 =>
          if isFoldOp op then
            let ws4 := r7.takeWhile isPyWs
            let r8 := r7.dropWhile isPyWs
            let d2 := r8.takeWhile isDigitChar
            let r9 := r8.dropWhile isDigitChar
            if d2 = [] then none
            else
              let ws5 := r9.takeWhile isPyWs
              let r10 := r9.dropWhile isPyWs
              match r10 with
              | ';' :: r11 =>
                some ((w ++ ws1 ++ ['='] ++ ws2,
                       d1 ++ ws3 ++ [op] ++ ws4 ++ d2,
                       ws5 ++ [';']), r11)
              | _ => none
          else none
        | _ => none
    | _ => none

/-- The `re.sub` scan of line 88: find non-overlapping matches left to right,
replacing each through `replace_expression`.  Every match consumes at least
one character, so `fuel = s.length` suffices. -/
def foldScan (fuel : ℕ) (s : List Char) : List Char :=
  match fuel, s with
  | 0, s => s
  | _ + 1, [] => []
  | f + 1, c :: rest =>
    match matchFoldAt (c :: rest) with
    | some ((g1, g2, g3), r) =>
      replace_expression g1 g2 g3 (g1 ++ g2 ++ g3) ++ foldScan f r
    | none => c :: foldScan f rest

/-- compiler.py `apply_constant_folding` (lines 65-89). -/
def apply_constant_folding (code : String) : String :=
  ⟨foldScan code.toList.length code.toList⟩

/-! ### compiler.py: `apply_loop_unrolling` (lines 91-118) -/

/-- The callback `unroll_loop` (lines 96-115) on the captured groups: loop
variable `var`, start `a`, end `b`, raw body group `body`, and the whole match
`orig`.  Loops with `b - a > 4` or `b - a ≤ 0` are returned unchanged;
otherwise the body is repeated for `i = a, ..., b-1` with whole-word
occurrences of `var` replaced by the value of `i`. -/
def unroll_loop (var : List Char) (a b : ℕ) (body : List Char) (orig : List Char) : List Char :=
  let loop_body := pyStrip body
  if 4 < (b : ℤ) - a ∨ (b : ℤ) - a ≤ 0 then orig
  else
    ['\x7b', '\n'] ++
      (List.range' a (b - a)).foldr
        (fun i acc =>
          let iteration_code := wordSub loop_body var (natChars i)
          (' ' :: ' ' :: ' ' :: ' ' :: pyStrip iteration_code) ++ ['\n'] ++ acc)
        ['\x7d']

/-- Deterministic matcher for the loop pattern of line 94 at the head of `s`:
`for\s*\(\s*int\s+(ident)\s*=\s*(\d+)\s*;\s*\1\s*<\s*(\d+)\s*;\s*\1\s*\+\+\s*\)\s*\{(body)\}`
with `body = [^{}]*(?:\{[^{}]*\}[^{}]*)*`.  The literal fragments, identifier,
digit and whitespace classes are pairwise disjoint at every junction, so
maximal munch is exact; the greedy body group together with the closing `\}`
matches exactly the prefix up to the first `}` at nesting depth 0, failing if
a `{` occurs at depth 1 first (see `luBody`). -/
def luBody : List Char → ℕ → Option (List Char × List Char)
  | [], _ => none
  | c :: rest, depth =>
    if c = '\x7d' then
      if depth = 0 then some ([], rest)
      else match luBody rest 0 with
        | some (b, r) => some (c :: b, r)
        | none => none
    else if c = '\x7b' then
      if depth = 0 then
        match luBody rest 1 with
        | some (b, r) => some (c :: b, r)
        | none => none
      else none
    else
      match luBody rest depth with
      | some (b, r) => some (c :: b, r)
      | none => none

/-- Parse an identifier `[a-zA-Z_][a-zA-Z0-9_]*` at the head of `s`. -/
def takeIdent (s : List Char) : Option (List Char × List Char) :=
  match s with
  | [] => none
  | c :: rest =>
    if isIdentStart c then
      some (c :: rest.takeWhile isWordChar, rest.dropWhile isWordChar)
    else none

/-- Match the for-loop pattern at the head of `s`; returns
`(var, a, b, body, whole-match, rest)`. -/
def matchLoopAt (s : List Char) :
    Option ((List Char × ℕ × ℕ × List Char) × List Char × List Char) := do
  let rest0 ← if ['f','o','r'].isPrefixOf s then some (s.drop 3) else none
  let r1 := rest0.dropWhile isPyWs
  let r2 ← match r1 with | '(' :: t => some t | _ => none
  let r3 := r2.dropWhile isPyWs
  let r4 ← if ['i','n','t'].isPrefixOf r3 then some (r3.drop 3) else none
  let r5 ← match r4 with
    | c :: t => if isPyWs c then some (t.dropWhile isPyWs) else none
    | [] => none
  let (var, r6) ← takeIdent r5
  let r7 := r6.dropWhile isPyWs
  let r8 ← match r7 with | '=' :: t => some t | _ => none
  let r9 := r8.dropWhile isPyWs
  let d1 := r9.takeWhile isDigitChar
  let r10 := r9.dropWhile isDigitChar
  let _ ← if d1 = [] then none else some ()
  let r11 := r10.dropWhile isPyWs
  let r12 ← match r11 with | ';' :: t => some t | _ => none
  let r13 := r12.dropWhile isPyWs
  let r14 ← if var.isPrefixOf r13 then some (r13.drop var.length) else none
  -- the backreference must not extend into a longer identifier
  let _ ← match r14 with
    | c :: _ => if isWordChar c then none else some ()
    | [] => some ()
  let r15 := r14.dropWhile isPyWs
  let r16 ← match r15 with | '<' :: t => some t | _ => none
  let r17 := r16.dropWhile isPyWs
  let d2 := r17.takeWhile isDigitChar
  let r18 := r17.dropWhile isDigitChar
  let _ ← if d2 = [] then none else some ()
  let r19 := r18.dropWhile isPyWs
  let r20 ← match r19 with | ';' :: t => some t | _ => none
  let r21 := r20.dropWhile isPyWs
  let r22 ← if var.isPrefixOf r21 then some (r21.drop var.length) else none
  let _ ← match r22 with
    | c :: _ => if isWordChar c then none else some ()
    | [] => some ()
  let r23 := r22.dropWhile isPyWs
  let r24 ← if ['+','+'].isPrefixOf r23 then some (r23.drop 2) else none
  let r25 := r24.dropWhile isPyWs
  let r26 ← match r25 with | ')' :: t => some t | _ => none
  let r27 := r26.dropWhile isPyWs
  let r28 ← match r27 with | '\x7b' :: t => some t | _ => none
  let (body, r29) ← luBody r28 0
  let consumed := s.length - r29.length
  some ((var, natOfDigits d1, natOfDigits d2, body), s.take consumed, r29)

/-- The `re.sub` scan of line 117 (`flags=re.DOTALL` is irrelevant: the
pattern contains no `.`). -/
def loopScan (fuel : ℕ) (s : List Char) : List Char :=
  match fuel, s with
  | 0, s => s
  | _ + 1, [] => []
  | f + 1, c :: rest =>
    match matchLoopAt (c :: rest) with
    | some ((var, a, b, body), whole, r) =>
      unroll_loop var a b body whole ++ loopScan f r
    | none => c :: loopScan f rest

/-- compiler.py `apply_loop_unrolling` (lines 91-118). -/
def apply_loop_unrolling (code : String) : String :=
  ⟨loopScan code.toList.length code.toList⟩

/-! ### compiler.py: `apply_copy_propagation` (lines 120-156) -/

/-- The C type keywords of the patterns on lines 135 and 147, in the
alternation order of the source. -/
def cTypeKeywords : List (List Char) :=
  [['i','n','t'], ['l','o','n','g'], ['f','l','o','a','t'],
   ['d','o','u','b','l','e'], ['c','h','a','r']]

/-- Try the keyword alternation `(?:int|long|float|double|char)` at the head
of `s`, in order; returns the rest after the first keyword that matches. -/
def matchTypeKw (s : List Char) : Option (List Char) :=
  (cTypeKeywords.find? (fun kw => kw.isPrefixOf s)).map (fun kw => s.drop kw.length)

/-- `re.search(r'^\s*(?:int|long|float|double|char)\s+(ident)\s*=\s*(ident)\s*;', line)`
(line 135): anchored at the line start; returns `(target, source)`.  Each
alternative keyword is tried in order; all other subpatterns are
backtracking-free. -/
def copyAssignMatch (line : List Char) : Option (List Char × List Char) := do
  let r1 := line.dropWhile isPyWs
  let r2 ← matchTypeKw r1
  let r3 ← match r2 with
    | c :: t => if isPyWs c then some (t.dropWhile isPyWs) else none
    | [] => none
  let (target, r4) ← takeIdent r3
  let r5 := r4.dropWhile isPyWs
  let r6 ← match r5 with | '=' :: t => some t | _ => none
  let r7 := r6.dropWhile isPyWs
  let (src, r8) ← takeIdent r7
  let r9 := r8.dropWhile isPyWs
  match r9 with
  | ';' :: _ => some (target, src)
  | _ => none

/-- The guard `re.match(r'^[a-zA-Z_][a-zA-Z0-9_]*$', source_var)` (line 140). -/
def isIdentFull (s : List Char) : Bool :=
  match s with
  | [] => false
  | c :: rest => isIdentStart c && rest.all isWordChar

/-- `re.search(r'^\s*(?:int|long|float|double|char)\s+' + re.escape(target), line)`
(line 147): does the line start with a declaration of `target` (no word
boundary after the variable, as in the source). -/
def declStartMatch (target line : List Char) : Bool :=
  match
    (do
      let r1 := line.dropWhile isPyWs
      let r2 ← matchTypeKw r1
      let r3 ← match r2 with
        | c :: t => if isPyWs c then some (t.dropWhile isPyWs) else none
        | [] => none
      if target.isPrefixOf r3 then some () else none : Option Unit)
  with
  | some _ => true
  | none => false

/-- Python `dict` insertion: update in place if the key exists (keeping its
position), else append. -/
def dictInsert (d : List (List Char × List Char)) (k v : List Char) :
    List (List Char × List Char) :=
  if d.any (fun p => p.1 = k) then
    d.map (fun p => if p.1 = k then (k, v) else p)
  else d ++ [(k, v)]

/-- One line of `apply_copy_propagation`'s loop body (lines 129-154), mapping
the running `copy_vars` to the emitted line and the updated `copy_vars`. -/
def copyPropLine (copy_vars : List (List Char × List Char)) (line : List Char) :
    List Char × List (List Char × List Char) :=
  -- reset copy vars at function boundaries (line 131)
  let cv0 := if hasSubstr line ['i','n','t',' ','m','a','i','n','('] ||
                hasSubstr line [')',' ','\x7b'] then [] else copy_vars
  -- record a copy assignment (lines 135-141)
  let cv1 := match copyAssignMatch line with
    | some (target, src) => if isIdentFull src then dictInsert cv0 target src else cv0
    | none => cv0
  -- apply propagation for known copies (lines 144-148)
  let modified := cv1.foldl
    (fun acc p =>
      if declStartMatch p.1 acc then acc else wordSub acc p.1 p.2)
    line
  -- clear copy vars at end of function (line 153)
  let cv2 := if pyStrip line = ['\x7d'] ∧ cv1 ≠ [] then [] else cv1
  (modified, cv2)

/-- compiler.py `apply_copy_propagation` (lines 120-156). -/
def apply_copy_propagation (code : String) : String :=
  let step := fun (st : List (List Char) × List (List Char × List Char)) line =>
    let (out, cv) := copyPropLine st.2 line
    (st.1 ++ [out], cv)
  ⟨joinNl ((splitNl code.toList).foldl step ([], [])).1⟩

/-! ### compiler.py: `apply_common_subexpression_elimination` (lines 158-212) -/

/-- Deterministic matcher for `(ident\s*[\+\-\*]\s*ident)` at the head of `s`;
returns the raw matched text and the rest. -/
def matchCseAt (s : List Char) : Option (List Char × List Char) := do
  let (id1, r1) ← takeIdent s
  let ws1 := r1.takeWhile isPyWs
  let r2 := r1.dropWhile isPyWs
  let op ← match r2 with
    | c :: _ => if c = '+' || c = '-' || c = '*' then some c else none
    | [] => none
  let r3 := r2.drop 1
  let ws2 := r3.takeWhile isPyWs
  let r4 := r3.dropWhile isPyWs
  let (id2, r5) ← takeIdent r4
  some (id1 ++ ws1 ++ [op] ++ ws2 ++ id2, r5)

/-- `re.findall` of the expression pattern (line 186): non-overlapping
matches, left to right. -/
def cseFindall (fuel : ℕ) (s : List Char) : List (List Char) :=
  match fuel, s with
  | 0, _ => []
  | _ + 1, [] => []
  | f + 1, c :: rest =>
    match matchCseAt (c :: rest) with
    | some (m, r) => m :: cseFindall f r
    | none => cseFindall f rest

/-- State of the CSE scan: seen expressions (Python dict), temp counter,
emitted lines (reversed is avoided: kept in order), in-function flag. -/
structure CseSt where
  seen : List (List Char × List Char)
  counter : ℕ
  out : List (List Char)
  inFunction : Bool

/-- The per-expression step of the inner loop (lines 188-208), threading the
modified line, the seen-dictionary, the counter and extra declaration lines. -/
def cseExpr (line : List Char) (nMatches : ℕ) (st : List Char × CseSt)
    (expr : List Char) : List Char × CseSt :=
  let (modified, s) := st
  let clean := collapseWs (pyStrip expr)
  match (s.seen.find? (fun p => p.1 = clean)).map Prod.snd with
  | some temp => (replaceAllSub modified expr temp, s)
  | none =>
    if 1 < nMatches then
      let temp := ['c','s','e','_','t','e','m','p','_'] ++ natChars s.counter
      let indent := line.length - (pyLstrip line).length
      let decl := List.replicate indent ' ' ++
        ['i','n','t',' '] ++ temp ++ [' ','=',' '] ++ clean ++ [';']
      (replaceAllSub modified expr temp,
       { s with seen := dictInsert s.seen clean temp,
                counter := s.counter + 1,
                out := s.out ++ [decl] })
    else (modified, s)

/-- One line of the CSE loop (lines 168-210). -/
def cseLine (s : CseSt) (line : List Char) : CseSt :=
  -- track function boundaries (lines 170-176)
  let s :=
    if hasSubstr line ['\x7b'] &&
        (hasSubstr line ['i','n','t',' ','m','a','i','n','('] ||
         hasSubstr line [')',' ','\x7b']) then
      { s with inFunction := true, seen := [], counter := 0 }
    else if pyStrip line = ['\x7d'] ∧ s.inFunction then
      { s with inFunction := false, seen := [] }
    else s
  if ¬ s.inFunction then { s with out := s.out ++ [line] }
  else
    let ms := cseFindall line.length line
    let (modified, s') := ms.foldl (cseExpr line ms.length) (line, s)
    { s' with out := s'.out ++ [modified] }

/-- compiler.py `apply_common_subexpression_elimination` (lines 158-212). -/
def apply_common_subexpression_elimination (code : String) : String :=
  ⟨joinNl ((splitNl code.toList).foldl cseLine ⟨[], 0, [], false⟩).out⟩

/-! ### compiler.py: `apply_dead_code_elimination` (lines 214-250) -/

/-- State of the dead-code scan: in-dead flag, brace depth, depth at which the
dead region started, emitted lines. -/
structure DceSt where
  inDead : Bool
  braceDepth : ℤ
  deadStartDepth : ℤ
  out : List (List Char)

/-- One line of the DCE loop (lines 222-248). -/
def dceLine (s : DceSt) (line : List Char) : DceSt :=
  let openB : ℤ := countChar line '\x7b'
  let closeB : ℤ := countChar line '\x7d'
  if ¬ s.inDead ∧ hasSubstr line ['r','e','t','u','r','n'] ∧ hasSubstr line [';'] then
    { inDead := true, braceDepth := s.braceDepth + openB - closeB,
      deadStartDepth := s.braceDepth, out := s.out ++ [line] }
  else
    let depth := s.braceDepth + openB - closeB
    if s.inDead then
      if depth ≤ s.deadStartDepth then
        { s with inDead := false, braceDepth := depth, out := s.out ++ [line] }
      else { s with braceDepth := depth }
    else { s with braceDepth := depth, out := s.out ++ [line] }

/-- compiler.py `apply_dead_code_elimination` (lines 214-250). -/
def apply_dead_code_elimination (code : String) : String :=
  ⟨joinNl ((splitNl code.toList).foldl dceLine ⟨false, 0, 0, []⟩).out⟩

/-! ### compiler.py: rule registry and `apply_random_optimization` (lines 19-25, 252-267) -/

/-- The `OPTIMIZATIONS` list (lines 19-25). -/
def OPTIMIZATIONS : List String :=
  ["constant_folding", "loop_unrolling", "copy_propagation",
   "common_subexpression_elimination", "dead_code_elimination"]

/-- compiler.py `apply_random_optimization` (lines 252-267).  The
`random.choice(OPTIMIZATIONS)` draw is supplied as the index `choice`; the
final `else` branch (returning `(source_code, None)`) is unreachable because
the chosen name is always one of the five registered rules. -/
def apply_random_optimization (choice : Fin OPTIMIZATIONS.length)
    (source_code : String) : String × Option String :=
  let optimization := OPTIMIZATIONS.get choice
  if optimization = "constant_folding" then
    (apply_constant_folding source_code, some optimization)
  else if optimization = "loop_unrolling" then
    (apply_loop_unrolling source_code, some optimization)
  else if optimization = "copy_propagation" then
    (apply_copy_propagation source_code, some optimization)
  else if optimization = "common_subexpression_elimination" then
    (apply_common_subexpression_elimination source_code, some optimization)
  else if optimization = "dead_code_elimination" then
    (apply_dead_code_elimination source_code, some optimization)
  else
    (source_code, none)

/-! ### compiler.py / optimizer.py: execution model

`random.choice`, gcc and timed subprocess execution are external effects; they
are supplied as oracle streams in an `Env` and consumed through per-effect
counters threaded in a `World`, which also logs the file-system effects (the
files written and the files deleted, as paths). -/

/-- Fitness domain: elapsed wall-clock seconds, or the infinite sentinel
`float('inf')` (`⊤`) for failed/timed-out runs. -/
abbrev Fitness := WithTop ℚ

/-- Outcome of one `subprocess.run([executable], timeout=...)` call
(compiler.py lines 45-63): the two `time.time()` readings, the exit code, and
whether `TimeoutExpired` or any other exception was raised. -/
structure RunOutcome where
  startTime : ℚ
  endTime : ℚ
  returncode : ℤ
  timedOut : Bool
  raisedErr : Bool

/-- compiler.py `get_execution_time` (lines 42-63): a timeout or any other
exception gives infinity, a non-zero exit code gives infinity, and a
successful run gives the measured elapsed wall-clock time.  (The `timeout`
argument only determines when `TimeoutExpired` is raised, which the
`RunOutcome` already records.) -/
def get_execution_time (r : RunOutcome) : Fitness :=
  if r.timedOut ∨ r.raisedErr then ⊤
  else if r.returncode ≠ 0 then ⊤
  else ((r.endTime - r.startTime : ℚ) : Fitness)

/-- One candidate program variant: the population-member dict built in
optimizer.py (lines 39-45 and 94-100).  `fitness` is absent (`none`) until
`evaluate_population` sets it. -/
structure Individual where
  code : String
  executable : String
  source_path : String
  optimizations : List String
  variant_id : String
  fitness : Option Fitness
deriving DecidableEq

instance : Inhabited Individual := ⟨⟨"", "", "", [], "", none⟩⟩

/-- Oracles for the external effects: the text of the input source file, the
stream of `random.choice(OPTIMIZATIONS)` draws, the stream of
`random.choice(best_individuals)` draws (taken modulo the list length), gcc
success per compile call, and the run outcome per timed execution (indexed by
call count and by executable path, so that a deterministic service is one
that ignores the call count). -/
structure Env where
  sourceText : String
  ruleChoice : ℕ → Fin OPTIMIZATIONS.length
  parentChoice : ℕ → ℕ
  compileOk : ℕ → Bool
  runOut : ℕ → String → RunOutcome

/-- Effect state: one counter per oracle stream, plus the file-system log
(files created and files removed, in order). -/
structure World where
  ruleT : ℕ := 0
  parT : ℕ := 0
  cmpT : ℕ := 0
  runT : ℕ := 0
  created : List String := []
  removed : List String := []
deriving DecidableEq

/-- `os.path.basename` followed by `.rsplit('.', 1)[0]` (compiler.py
lines 29, 271): the file name after the last `/`, with the last
extension removed when a `.` is present. -/
def baseNameOf (p : String) : String :=
  let name := (p.toList.reverse.takeWhile (fun c => c ≠ '/')).reverse
  if name.contains '.' then
    ⟨((name.reverse.dropWhile (fun c => c ≠ '.')).drop 1).reverse⟩
  else ⟨name⟩

/-- `os.path.join` for a directory and a file name. -/
def pathJoin (d f : String) : String := d ++ "/" ++ f

/-- `os.path.basename`: the file name after the last `/`. -/
def fileNameOf (p : String) : String :=
  ⟨(p.toList.reverse.takeWhile (fun c => c ≠ '/')).reverse⟩

/-- The stateful wrapper of `apply_random_optimization`: draws the next
`random.choice(OPTIMIZATIONS)` value from the oracle. -/
def applyRandomOptW (env : Env) (w : World) (source_code : String) :
    (String × Option String) × World :=
  (apply_random_optimization (env.ruleChoice w.ruleT) source_code,
   { w with ruleT := w.ruleT + 1 })

/-- compiler.py `compile_optimized_variant` (lines 269-287): the variant
source file is written unconditionally (lines 276-277); gcc then either
produces the executable or fails, in which case `None` is returned and no
executable exists. -/
def compile_optimized_variant (env : Env) (w : World) (source_file : String)
    (_optimized_code : String) (variant_id : String) (output_dir : String) :
    Option String × World :=
  let base := baseNameOf source_file
  let variant_file := pathJoin output_dir (base ++ "_variant_" ++ variant_id ++ ".c")
  let output_path := pathJoin output_dir (base ++ "_variant_" ++ variant_id)
  let ok := env.compileOk w.cmpT
  (if ok then some output_path else none,
   { w with cmpT := w.cmpT + 1,
            created := w.created ++ [variant_file] ++
              (if ok then [output_path] else []) })

/-- compiler.py `compile_original` (lines 27-40). -/
def compile_original (env : Env) (w : World) (source_file output_dir : String) :
    Option String × World :=
  let base := baseNameOf source_file
  let output_path := pathJoin output_dir (base ++ "_original")
  let ok := env.compileOk w.cmpT
  (if ok then some output_path else none,
   { w with cmpT := w.cmpT + 1,
            created := w.created ++ (if ok then [output_path] else []) })

/-- optimizer.py `create_initial_population` (lines 25-47), iterating over
`i in range(population_size)`. -/
def initPopGo (env : Env) (source_code source_file output_dir : String) :
    List ℕ → World → List Individual → List Individual × World
  | [], w, acc => (acc, w)
  | i :: rest, w, acc =>
    let ((optimized_code, optName), w1) := applyRandomOptW env w source_code
    let (exe?, w2) := compile_optimized_variant env w1 source_file optimized_code
      (toString i) output_dir
    match exe? with
    | some exe =>
      let source_path := pathJoin output_dir
        (baseNameOf source_file ++ "_variant_" ++ toString i ++ ".c")
      initPopGo env source_code source_file output_dir rest w2
        (acc ++ [{ code := optimized_code, executable := exe,
                   source_path := source_path,
                   optimizations := match optName with
                     | some o => [o]
                     | none => [],
                   variant_id := toString i, fitness := none }])
    | none => initPopGo env source_code source_file output_dir rest w2 acc

/-- optimizer.py `create_initial_population` (lines 25-47). -/
def create_initial_population (env : Env) (w : World)
    (source_code source_file output_dir : String) (population_size : ℕ) :
    List Individual × World :=
  initPopGo env source_code source_file output_dir
    (List.range population_size) w []

/-- Sort key of `population.sort(key=lambda x: x['fitness'])`: every
individual has a fitness when the sort runs (`evaluate_population` has just
set them all); `⊤` is the default for the unreachable missing-key case. -/
def fitKey (ind : Individual) : Fitness := ind.fitness.getD ⊤

/-- Assign fitnesses in population order (optimizer.py lines 51-53),
consuming one run-oracle tick per individual. -/
def evalAssign (env : Env) : List Individual → World → List Individual × World
  | [], w => ([], w)
  | ind :: rest, w =>
    let ind' := { ind with
      fitness := some (get_execution_time (env.runOut w.runT ind.executable)) }
    let (r, w') := evalAssign env rest { w with runT := w.runT + 1 }
    (ind' :: r, w')

/-- optimizer.py `evaluate_population` (lines 49-57): measure every
individual, then sort ascending by fitness.  Python `list.sort` is stable;
`List.insertionSort` with the reflexive, total `≤` on the keys is the same
stable ascending sort. -/
def evaluate_population (env : Env) (population : List Individual) (w : World) :
    List Individual × World :=
  let (p, w') := evalAssign env population w
  (List.insertionSort (fun a b => fitKey a ≤ fitKey b) p, w')

/-- optimizer.py `select_best` (lines 59-61). -/
def select_best (population : List Individual) (top_n : ℕ) : List Individual :=
  population.take top_n

/-- The elite count used at optimizer.py line 177:
`top_n=max(1, population_size // 3)`. -/
def eliteCountOf (population_size : ℕ) : ℕ := max 1 (population_size / 3)

/-- The refill loop of `create_next_generation` (optimizer.py lines 72-100).
The Python `while` loop has no attempt bound and loops forever if every
compilation fails; `fuel` bounds the recursion (one unit per loop iteration),
and every theorem below instantiates it large enough that the bound is never
the reason the loop stops. -/
def nextGenGo (env : Env) (best_individuals : List Individual)
    (source_file output_dir : String) (generation population_size : ℕ) :
    ℕ → World → List Individual → List Individual × World
  | 0, w, acc => (acc, w)
  | fuel + 1, w, acc =>
    if population_size ≤ acc.length then (acc, w)
    else
      -- random.choice(best_individuals); raises on an empty list in Python,
      -- modelled by the default individual (never reached from a nonempty
      -- generation-0 population)
      let parent := best_individuals.getD
        (env.parentChoice w.parT % best_individuals.length) default
      let w0 := { w with parT := w.parT + 1 }
      let ((child_code, optName), w1) := applyRandomOptW env w0 parent.code
      let variant_id := toString generation ++ "_" ++ toString acc.length
      let (exe?, w2) := compile_optimized_variant env w1 source_file child_code
        variant_id output_dir
      match exe? with
      | some exe =>
        let source_path := pathJoin output_dir
          (baseNameOf source_file ++ "_variant_" ++ variant_id ++ ".c")
        let optimizations := parent.optimizations ++
          (match optName with
           | some o => [o]
           | none => [])
        nextGenGo env best_individuals source_file output_dir generation
          population_size fuel w2
          (acc ++ [{ code := child_code, executable := exe,
                     source_path := source_path,
                     optimizations := optimizations,
                     variant_id := variant_id, fitness := none }])
      | none =>
        nextGenGo env best_individuals source_file output_dir generation
          population_size fuel w2 acc

/-- optimizer.py `create_next_generation` (lines 63-102): the elites are kept
as-is (lines 67-69) and the population is refilled to `population_size` by
mutating randomly chosen elites. -/
def create_next_generation (env : Env) (w : World)
    (best_individuals : List Individual) (source_file output_dir : String)
    (generation population_size fuel : ℕ) : List Individual × World :=
  nextGenGo env best_individuals source_file output_dir generation
    population_size fuel w best_individuals

/-- optimizer.py `cleanup_variants` (lines 104-136): copy the best variant's
source and executable to the stable `_optimized` names, then delete every
file in the output directory whose name starts with `<base>_variant_`
(including the best variant's own files).  The `population` parameter is
unused in the source.  `os.walk` sees exactly the files created and not yet
removed; the removal order is directory-enumeration order, modelled as
creation order. -/
def cleanup_variants (w : World) (best_individual : Individual)
    (_population : List Individual) (output_dir source_file : String) :
    (String × String) × World :=
  let base := baseNameOf source_file
  let optimized_source := pathJoin output_dir (base ++ "_optimized.c")
  let optimized_executable := pathJoin output_dir (base ++ "_optimized")
  -- shutil.copy2 of best_individual.source_path / .executable (lines 116-117)
  let w1 := { w with created := w.created ++ [optimized_source, optimized_executable] }
  let doomed := w1.created.filter (fun p =>
    ¬ w1.removed.contains p ∧
    startsWithSub (fileNameOf p).toList (base ++ "_variant_").toList)
  ((optimized_executable, optimized_source),
   { w1 with removed := w1.removed ++ doomed })

/-- Result of `evolve_code`: the returned triple (`None, None, None` is
`none`), the recorded `all_populations`, the trace of the `best_individual`
variable after generation 0 and after each loop iteration (ghost
instrumentation: the source keeps only the current value), and the final
effect state. -/
structure EvolveOut where
  result : Option (String × Fitness × List String)
  allPops : List (List Individual)
  bestHist : List Individual
  world : World

/-- The generation loop of `evolve_code` (optimizer.py lines 173-199),
iterating `generation in range(1, max_generations + 1)`; `gensLeft` is the
number of iterations remaining.  Python appends the population list object to
`all_populations` before evaluating it, but `evaluate_population` updates and
sorts that same object in place, so the recorded entry is the evaluated,
sorted population. -/
def evolveLoop (env : Env) (source_file output_dir : String)
    (population_size fuel : ℕ) :
    ℕ → ℕ → List Individual → Individual → List Individual →
    List (List Individual) → World →
    Individual × List Individual × List (List Individual) × World
  | 0, _, _, best, bestHist, allPops, w => (best, bestHist, allPops, w)
  | gensLeft + 1, generation, population, best, bestHist, allPops, w =>
    let best_individuals := select_best population (eliteCountOf population_size)
    let (next, w1) := create_next_generation env w best_individuals source_file
      output_dir generation population_size fuel
    let (evaluated, w2) := evaluate_population env next w1
    let allPops' := allPops ++ [evaluated]
    -- lines 187-192: update the best-so-far on strict improvement
    let cur := evaluated.headD default
    let best' := if fitKey cur < fitKey best then cur else best
    let bestHist' := bestHist ++ [best']
    -- lines 194-199: the early-termination check; the comprehension iterates
    -- over the singleton `[population]`, so the set always has one element
    if 3 ≤ generation ∧
        (([evaluated].map (fun gen => (gen.headD default).fitness)).dedup.length = 1) then
      (best', bestHist', allPops', w2)
    else
      evolveLoop env source_file output_dir population_size fuel
        gensLeft (generation + 1) evaluated best' bestHist' allPops' w2

/-- optimizer.py `evolve_code` (lines 138-205). -/
def evolve_code (env : Env) (w : World) (source_file output_dir : String)
    (original_time : Fitness) (max_generations population_size fuel : ℕ) :
    EvolveOut :=
  let source_code := env.sourceText  -- read_source_code(source_file)
  let (population, w1) := create_initial_population env w source_code
    source_file output_dir population_size
  if population = [] then ⟨none, [], [], w1⟩
  else
    let (pop0, w2) := evaluate_population env population w1
    let best_individual := pop0.headD default
    let allPops := [pop0]
    if original_time ≤ fitKey best_individual then
      -- lines 160-170: no variant beats the baseline; delete each evaluated
      -- variant's source and executable and return with no winner
      let doomed := pop0.foldl
        (fun acc ind => acc ++ [ind.source_path, ind.executable]) []
      ⟨none, allPops, [best_individual],
        { w2 with removed := w2.removed ++ doomed }⟩
    else
      let (bestF, bestHist, allPops', w3) := evolveLoop env source_file output_dir
        population_size fuel max_generations 1 pop0 best_individual
        [best_individual] allPops w2
      let ((optimized_executable, _), w4) := cleanup_variants w3 bestF
        (allPops'.foldl (fun a b => a ++ b) []) output_dir source_file
      ⟨some (optimized_executable, fitKey bestF, bestF.optimizations),
        allPops', bestHist, w4⟩

/-- Result of `main`: the process exit code and the evolve outcome. -/
structure MainOut where
  exitCode : ℕ
  evolveOut : Option EvolveOut
  world : World

/-- main.py `main` (lines 15-75), from the point where the source file is
known to exist: compile the baseline (exit 1 on failure), time it, and run
`evolve_code`.  The parsed `--keep-all` flag (`keep_all`) is printed but
never passed to `evolve_code` or `cleanup_variants`; it is a parameter here
only because the CLI accepts it. -/
def main_run (env : Env) (source_file output_dir : String)
    (generations population : ℕ) (keep_all : Bool) (fuel : ℕ) : MainOut :=
  let w0 : World := {}
  let (origExe?, w1) := compile_original env w0 source_file output_dir
  match origExe? with
  | none => ⟨1, none, w1⟩  -- sys.exit(1)
  | some exe =>
    let original_time := get_execution_time (env.runOut w1.runT exe)
    let w2 := { w1 with runT := w1.runT + 1 }
    let eo := evolve_code env w2 source_file output_dir original_time
      generations population fuel
    ⟨0, some eo, eo.world⟩

/-! ### Correctness of the binary64 division model -/

/-- Specification of the fuelled floor-log: for `1 ≤ n ≤ f`,
`floorLog2F f n` is the exponent of the binade of `n`. -/
theorem floorLog2F_spec : ∀ f n, 1 ≤ n → n ≤ f →
    2 ^ floorLog2F f n ≤ n ∧ n < 2 ^ (floorLog2F f n + 1) := by
  intro f
  induction f with
  | zero => intro n h1 h2; omega
  | succ f ih =>
    intro n h1 h2
    by_cases h : n < 2
    · simp only [floorLog2F, if_pos h]
      constructor
      · simpa using h1
      · simpa using h
    · simp only [floorLog2F, if_neg h]
      have hn2 : 1 ≤ n / 2 := by omega
      have hf : n / 2 ≤ f := by omega
      obtain ⟨l, u⟩ := ih (n / 2) hn2 hf
      constructor
      · have hmul : 2 ^ floorLog2F f (n / 2) * 2 ≤ n / 2 * 2 :=
          Nat.mul_le_mul_right 2 l
        rw [pow_succ]
        omega
      · have hmul : (n / 2 + 1) * 2 ≤ 2 ^ (floorLog2F f (n / 2) + 1) * 2 :=
          Nat.mul_le_mul_right 2 u
        rw [pow_succ]
        omega

/-- Specification of `floorLog2`. -/
theorem floorLog2_spec (n : ℕ) (h : 1 ≤ n) :
    2 ^ floorLog2 n ≤ n ∧ n < 2 ^ (floorLog2 n + 1) :=
  floorLog2F_spec n n h le_rfl

/-- `binadeOf a b` brackets `a/b`: `2^e ≤ a/b < 2^(e+1)`. -/
theorem binade_bounds (a b : ℕ) (ha : 1 ≤ a) (hb : 1 ≤ b) :
    (2 : ℚ) ^ binadeOf a b ≤ (a : ℚ) / b ∧ (a : ℚ) / b < 2 ^ (binadeOf a b + 1) := by
  have hbq : (0 : ℚ) < b := by exact_mod_cast hb
  by_cases hab : b ≤ a
  · -- e = floorLog2 (a / b) ≥ 0
    have hd1 : 1 ≤ a / b := (Nat.one_le_div_iff hb).mpr hab
    obtain ⟨l, u⟩ := floorLog2_spec (a / b) hd1
    rw [binadeOf, if_pos hab]
    constructor
    · have h1 : ((2 ^ floorLog2 (a / b) : ℕ) : ℚ) ≤ ((a / b : ℕ) : ℚ) := by
        exact_mod_cast l
      have h2 : ((a / b : ℕ) : ℚ) ≤ (a : ℚ) / b := Nat.cast_div_le
      rw [zpow_natCast]
      push_cast at h1
      linarith
    · have h3 : a < (a / b + 1) * b := by
        have hmod : a % b < b := Nat.mod_lt a hb
        calc a = b * (a / b) + a % b := (Nat.div_add_mod a b).symm
          _ < b * (a / b) + b := by omega
          _ = (a / b + 1) * b := by ring
      have h4 : (a : ℚ) / b < ((a / b : ℕ) : ℚ) + 1 := by
        rw [div_lt_iff hbq]
        push_cast
        exact_mod_cast h3
      have h5 : ((a / b : ℕ) : ℚ) + 1 ≤ ((2 : ℚ)) ^ (floorLog2 (a / b) + 1) := by
        exact_mod_cast u
      have : (2 : ℚ) ^ ((floorLog2 (a / b) : ℤ) + 1) = (2 : ℚ) ^ (floorLog2 (a / b) + 1) := by
        rw [← zpow_natCast (2 : ℚ) (floorLog2 (a / b) + 1)]
        push_cast
        ring_nf
      rw [this]
      linarith
  · -- a < b: e = -(j + 1) with j = floorLog2 ((b - 1) / a)
    push_neg at hab
    have haq : (0 : ℚ) < a := by exact_mod_cast ha
    have hba : a ≤ b - 1 := by omega
    have hd1 : 1 ≤ (b - 1) / a := (Nat.one_le_div_iff ha).mpr hba
    obtain ⟨l, u⟩ := floorLog2_spec ((b - 1) / a) hd1
    set j := floorLog2 ((b - 1) / a) with hj
    -- a * 2^j < b  and  b ≤ a * 2^(j+1), in ℕ
    have hlo : a * 2 ^ j < b := by
      have h1 : a * 2 ^ j ≤ a * ((b - 1) / a) := Nat.mul_le_mul_left a l
      have h2 : a * ((b - 1) / a) ≤ b - 1 := Nat.mul_div_le (b - 1) a
      omega
    have hhi : b ≤ a * 2 ^ (j + 1) := by
      have h1 : (b - 1) / a < 2 ^ (j + 1) := u
      have h2 : b - 1 < 2 ^ (j + 1) * a := (Nat.div_lt_iff_lt_mul ha).mp h1
      rw [mul_comm] at h2
      omega
    rw [binadeOf, if_neg (by omega)]
    have hpow : (0 : ℚ) < 2 ^ (j + 1) := by positivity
    constructor
    · -- 2 ^ (-(j+1)) ≤ a / b  ⟺  b ≤ a * 2^(j+1)
      have hcast : (b : ℚ) ≤ (a : ℚ) * 2 ^ (j + 1) := by exact_mod_cast hhi
      have hexp : (-((j + 1 : ℕ) : ℤ)) = -(((j : ℤ)) + 1) := by push_cast; ring
      rw [hexp, zpow_neg]
      have hz : (2 : ℚ) ^ (((j : ℤ)) + 1) = (2 : ℚ) ^ (j + 1 : ℕ) := by
        rw [← zpow_natCast (2 : ℚ) (j + 1)]
        push_cast
        ring_nf
      rw [hz, inv_eq_one_div, div_le_div_iff (by positivity) hbq]
      linarith
    · -- a / b < 2 ^ (-(j+1)+1) = 2 ^ (-j)  ⟺  a * 2^j < b
      have hcast : (a : ℚ) * 2 ^ j < (b : ℚ) := by exact_mod_cast hlo
      have hstep : (-(((j : ℕ) + 1 : ℕ) : ℤ) + 1) = -(j : ℤ) := by push_cast; ring
      rw [hstep, zpow_neg, zpow_natCast]
      rw [div_lt_iff hbq, inv_mul_eq_div, lt_div_iff (by positivity : (0:ℚ) < 2 ^ j)]
      exact hcast

/-- `rheNat` rounds to within a half of the exact quotient, and is exact on
integers. -/
theorem rheNat_bounds (num den : ℕ) (hden : 1 ≤ den) :
    (num : ℚ) / den - 1 / 2 ≤ (rheNat num den : ℚ) ∧
    (rheNat num den : ℚ) ≤ (num : ℚ) / den + 1 / 2 ∧
    (den ∣ num → (rheNat num den : ℚ) = (num : ℚ) / den) := by
  have hdq : (0 : ℚ) < den := by exact_mod_cast hden
  have hdm : num / den * den + num % den = num := Nat.div_add_mod' num den
  have hexact : (num : ℚ) / den = (num / den : ℕ) + (num % den : ℕ) / den := by
    field_simp
    exact_mod_cast hdm.symm
  set rq : ℚ := ((num % den : ℕ) : ℚ) / den with hrqdef
  have hr0 : (0 : ℚ) ≤ rq := by positivity
  have hr1 : rq < 1 := by
    rw [hrqdef, div_lt_one hdq]
    exact_mod_cast Nat.mod_lt num hden
  have hlow : 2 * (num % den) < den → rq ≤ 1 / 2 := by
    intro h
    have hq : ((num % den : ℕ) : ℚ) * 2 ≤ den := by
      have : 2 * (num % den) ≤ den := by omega
      have hc : ((2 * (num % den) : ℕ) : ℚ) ≤ ((den : ℕ) : ℚ) := by exact_mod_cast this
      push_cast at hc
      linarith
    rw [hrqdef, div_le_div_iff hdq (by norm_num : (0:ℚ) < 2)]
    linarith
  have hhigh : den < 2 * (num % den) → 1 / 2 ≤ rq := by
    intro h
    have hq : ((den : ℕ) : ℚ) ≤ ((num % den : ℕ) : ℚ) * 2 := by
      have : den ≤ 2 * (num % den) := by omega
      have hc : ((den : ℕ) : ℚ) ≤ ((2 * (num % den) : ℕ) : ℚ) := by exact_mod_cast this
      push_cast at hc
      linarith
    rw [hrqdef, div_le_div_iff (by norm_num : (0:ℚ) < 2) hdq]
    linarith
  have htie : ¬ 2 * (num % den) < den → ¬ den < 2 * (num % den) → rq = 1 / 2 := by
    intro h1 h2
    have : den = 2 * (num % den) := by omega
    have hc : ((den : ℕ) : ℚ) = ((2 * (num % den) : ℕ) : ℚ) := by exact_mod_cast this
    push_cast at hc
    rw [hrqdef, div_eq_div_iff hdq.ne' (by norm_num : (2:ℚ) ≠ 0)]
    linarith
  refine ⟨?_, ?_, ?_⟩
  · rw [rheNat, hexact]
    split_ifs with h1 h2 h3
    · have := hlow h1
      push_cast
      linarith
    · push_cast; linarith
    · have := htie h1 h2
      push_cast
      linarith
    · push_cast; linarith
  · rw [rheNat, hexact]
    split_ifs with h1 h2 h3
    · push_cast; linarith
    · have := hhigh h2
      push_cast
      linarith
    · have := htie h1 h2
      push_cast
      linarith
    · have := htie h1 h2
      push_cast
      linarith
  · intro hdvd
    obtain ⟨k, hk⟩ := hdvd
    have hmod0 : num % den = 0 := by
      rw [hk]
      exact Nat.mul_mod_right den k
    have h1 : 2 * (num % den) < den := by omega
    rw [rheNat]
    rw [if_pos h1, hexact, hrqdef, hmod0]
    push_cast
    simp

/-- For dividends below `2^53` (every significand-exact int), `int()` of the
rounded binary64 quotient is the truncated integer quotient. -/
theorem pyIntTrueDiv_eq (a b : ℕ) (hb : b ≠ 0) (ha : a < 2 ^ 53) :
    pyIntTrueDiv a b = some ((a / b : ℕ) : ℤ) := by
  rcases Nat.eq_zero_or_pos a with ha0 | hapos
  · subst ha0
    simp [pyIntTrueDiv, hb]
  · have hb1 : 1 ≤ b := by omega
    have ha1 : 1 ≤ a := hapos
    obtain ⟨hlo, hhi⟩ := binade_bounds a b ha1 hb1
    have hbq : (0:ℚ) < b := by exact_mod_cast hb1
    have haq : (0:ℚ) < a := by exact_mod_cast ha1
    have ha53 : (a:ℚ) < (2:ℚ) ^ (53:ℕ) := by exact_mod_cast ha
    set e : ℤ := binadeOf a b with he
    have hpe : (0:ℚ) < (2:ℚ) ^ e := zpow_pos (by norm_num) e
    -- the dividend bound forces the binade below 2^53
    have he52 : e ≤ 52 := by
      by_contra hgt
      push_neg at hgt
      have h53 : (53:ℤ) ≤ e := by omega
      have hph : (2:ℚ) ^ (53:ℤ) ≤ (2:ℚ) ^ e := zpow_le_zpow_right₀ (by norm_num) h53
      have hab : (a:ℚ) / b ≤ a := by
        rw [div_le_iff hbq]
        nlinarith [mul_le_mul_of_nonneg_left
          (show (1:ℚ) ≤ b by exact_mod_cast hb1) (le_of_lt haq)]
      have hq53 : (2:ℚ) ^ (53:ℤ) = (2:ℚ) ^ (53:ℕ) := by
        rw [← zpow_natCast (2:ℚ) 53]
        norm_num
      linarith
    set s : ℕ := (52 - e).toNat with hs
    have hsz : ((s:ℤ)) = 52 - e := by omega
    set N : ℕ := 2 ^ s with hN
    have hN1 : 1 ≤ N := Nat.one_le_two_pow
    have hNq : (0:ℚ) < N := by exact_mod_cast hN1
    have hNzq : ((N:ℕ):ℚ) = (2:ℚ) ^ (52 - e : ℤ) := by
      rw [hN]
      push_cast
      rw [← zpow_natCast (2:ℚ) s, hsz]
    set m : ℕ := rheNat (a * N) b with hm
    obtain ⟨hml, hmu, hmex⟩ := rheNat_bounds (a * N) b hb1
    clear_value e s N m
    rw [← hm] at hml hmu
    clear hmex
    have hqN : ((a * N : ℕ) : ℚ) / b = (a:ℚ) / b * N := by
      push_cast
      ring
    rw [hqN] at hml hmu
    -- m is at most 2^53
    have hq53top : (a:ℚ) / b * N < (2:ℚ) ^ (53:ℕ) := by
      have h2 : (2:ℚ) ^ (e+1) * ((N:ℕ):ℚ) = (2:ℚ) ^ (53:ℕ) := by
        rw [hNzq, ← zpow_add₀ (by norm_num : (2:ℚ) ≠ 0)]
        have : e + 1 + (52 - e) = (53:ℤ) := by ring
        rw [this, ← zpow_natCast (2:ℚ) 53]
        norm_num
      nlinarith [hhi, hNq]
    have hm53 : m ≤ 2 ^ 53 := by
      by_contra hcon
      push_neg at hcon
      have h1 : ((2:ℚ)) ^ (53:ℕ) + 1 ≤ (m:ℚ) := by
        have : (2 ^ 53 + 1 : ℕ) ≤ m := hcon
        exact_mod_cast this
      linarith
    -- the two integer bounds on m
    set n : ℕ := a / b with hn
    clear_value n
    have hnq : ((n:ℕ):ℚ) ≤ (a:ℚ) / b := by
      rw [hn]
      exact Nat.cast_div_le
    have hL : n * N ≤ m := by
      by_contra hcon
      push_neg at hcon
      have h1 : ((m:ℕ):ℚ) + 1 ≤ ((n * N : ℕ):ℚ) := by exact_mod_cast hcon
      have h2 : ((n * N : ℕ):ℚ) = ((n:ℕ):ℚ) * N := by push_cast; ring
      nlinarith [hml, hNq]
    -- b < 2 N
    have hb2N : (b:ℚ) < 2 * N := by
      have h1 : (b:ℚ) * ((2:ℚ) ^ e) ≤ a := by
        have h2 := mul_le_mul_of_nonneg_right hlo (le_of_lt hbq)
        rw [div_mul_cancel₀] at h2
        · linarith
        · exact ne_of_gt hbq
      have h3 : (2:ℚ) * N * ((2:ℚ) ^ e) = (2:ℚ) ^ (53:ℕ) := by
        rw [hNzq, mul_assoc, ← zpow_add₀ (by norm_num : (2:ℚ) ≠ 0)]
        have : (52 - e) + e = (52:ℤ) := by ring
        rw [this]
        rw [← zpow_natCast (2:ℚ) 53]
        have : (2:ℚ) * (2:ℚ) ^ (52:ℤ) = (2:ℚ) ^ (52 + 1 : ℤ) := by
          rw [zpow_add₀ (by norm_num : (2:ℚ) ≠ 0)]
          ring
        rw [this]
        norm_num
      by_contra hcon
      push_neg at hcon
      have h4 : (2:ℚ) * N * ((2:ℚ) ^ e) ≤ (b:ℚ) * ((2:ℚ) ^ e) :=
        mul_le_mul_of_nonneg_right hcon (le_of_lt hpe)
      rw [h3] at h4
      linarith [ha53]
    have hU : m < (n + 1) * N := by
      set r : ℕ := a % b with hr
      clear_value r
      have hdm : n * b + r = a := by
        rw [hn, hr]
        exact Nat.div_add_mod' a b
      have hrb : r < b := by
        rw [hr]
        exact Nat.mod_lt a (by omega)
      have hsplit : (a:ℚ) / b * N = ((n:ℕ):ℚ) * N + (r:ℚ) * N / b := by
        have hc : (a:ℚ) = ((n:ℕ):ℚ) * b + r := by exact_mod_cast hdm.symm
        rw [hc]
        field_simp
        ring
      have hrq : (r:ℚ) ≤ (b:ℚ) - 1 := by
        have : r + 1 ≤ b := hrb
        have hc : ((r:ℕ):ℚ) + 1 ≤ ((b:ℕ):ℚ) := by exact_mod_cast this
        linarith
      have hrN : (r:ℚ) * N / b < (N:ℚ) - 1/2 := by
        rw [div_lt_iff hbq]
        have h1 : (r:ℚ) * N ≤ ((b:ℚ) - 1) * N :=
          mul_le_mul_of_nonneg_right hrq (le_of_lt hNq)
        have h2 : ((b:ℚ) - 1) * N = b * N - N := by ring
        have h3 : ((N:ℚ) - 1/2) * b = b * N - b / 2 := by ring
        linarith [hb2N]
      have h1 : (m:ℚ) < ((n:ℕ):ℚ) * N + N := by
        calc (m:ℚ) ≤ (a:ℚ) / b * N + 1/2 := hmu
          _ = ((n:ℕ):ℚ) * N + (r:ℚ) * N / b + 1/2 := by rw [hsplit]
          _ < ((n:ℕ):ℚ) * N + ((N:ℚ) - 1/2) + 1/2 := by linarith [hrN]
          _ = ((n:ℕ):ℚ) * N + N := by ring
      have h2 : (m:ℚ) < (((n + 1) * N : ℕ):ℚ) := by
        push_cast
        push_cast at h1
        linarith
      exact_mod_cast h2
    have hdiv : m / N = n := Nat.div_eq_of_lt_le hL hU
    -- no overflow
    have hov : ¬ 2 ^ 1076 ≤ m * 2 ^ e.toNat := by
      intro hcon
      have h1 : m * 2 ^ e.toNat ≤ 2 ^ 53 * 2 ^ 52 :=
        Nat.mul_le_mul hm53 (Nat.pow_le_pow_right (by norm_num) (by omega))
      have h2 : (2:ℕ) ^ 1076 ≤ 2 ^ 105 := by
        calc (2:ℕ) ^ 1076 ≤ m * 2 ^ e.toNat := hcon
          _ ≤ 2 ^ 53 * 2 ^ 52 := h1
          _ = 2 ^ 105 := by rw [← pow_add]
      have := Nat.pow_lt_pow_right (a := 2) (by norm_num) (by norm_num : 105 < 1076)
      omega
    -- select the branches of the definition
    rw [pyIntTrueDiv]
    rw [if_neg hb, if_neg (by omega : ¬ a = 0)]
    dsimp only
    simp only [← he, ← hs, ← hN]
    rw [if_pos he52]
    simp only [← hm]
    rw [if_neg hov, if_pos he52]
    rw [hdiv, hn]

/-! ### Claim C10: totality of constant folding at the arithmetic step -/

set_option maxRecDepth 8192 in
/-- C10 counterexample: the claim's "for `d2 ≠ 0` the folded value is the
truncated integer quotient" fails at `27021597764222975 / 3`.  Python
evaluates `eval("27021597764222975/3")` in binary64: the quotient rounds up
to `2^53 = 9007199254740992`, while the truncated integer quotient is
`9007199254740991`. -/
theorem constant_folding_truncation_cex :
    apply_constant_folding "x = 27021597764222975/3;" = "x = 9007199254740992;" ∧
    (27021597764222975 : ℕ) / 3 = 9007199254740991 ∧
    apply_constant_folding "x = 27021597764222975/3;" ≠ "x = 9007199254740991;" := by
  refine ⟨by decide, by decide, by decide⟩

/-- C10 (amended): `apply_constant_folding`'s arithmetic step is total.  The
`re.sub` callback `replace_expression` never raises: when the matched
expression fails the inner guard it returns the match unchanged; a division
with `d2 = 0` (`ZeroDivisionError`, caught by the bare `except`) returns the
match unchanged; and for `d2 ≠ 0` the folded value is `int()` of the binary64
quotient, which equals the truncated integer quotient whenever
`d1 < 2^53`. -/
theorem constant_folding_division_total (g1 g2 g3 whole : List Char) (a b : ℕ) :
    (parseSimpleExpr (removeWs g2) = none → replace_expression g1 g2 g3 whole = whole) ∧
    (parseSimpleExpr (removeWs g2) = some (a, '/', b) → b = 0 →
      replace_expression g1 g2 g3 whole = whole) ∧
    (parseSimpleExpr (removeWs g2) = some (a, '/', b) → b ≠ 0 → a < 2 ^ 53 →
      replace_expression g1 g2 g3 whole = g1 ++ intChars ((a / b : ℕ) : ℤ) ++ g3) := by
  refine ⟨?_, ?_, ?_⟩
  · intro h
    simp [replace_expression, h]
  · intro h hb0
    subst hb0
    simp [replace_expression, h, pyEvalFold, pyIntTrueDiv]
  · intro h hb ha
    simp [replace_expression, h, pyEvalFold, pyIntTrueDiv_eq a b hb ha]

/-- Witness for `constant_folding_division_total` at concrete inputs:
`10 / 4` folds to the truncated quotient `2`, and `5 / 0` is left
unchanged. -/
theorem constant_folding_division_total_witness :
    replace_expression "x = ".toList "10/4".toList ";".toList "x = 10/4;".toList
        = "x = ".toList ++ intChars ((10 / 4 : ℕ) : ℤ) ++ ";".toList ∧
    replace_expression "z = ".toList "5/0".toList ";".toList "z = 5/0;".toList
        = "z = 5/0;".toList :=
  ⟨(constant_folding_division_total _ _ _ _ 10 4).2.2 (by decide) (by decide) (by decide),
   (constant_folding_division_total _ _ _ _ 5 0).2.1 (by decide) rfl⟩

/-! ### Claim C9: bounded loop unrolling -/

/-- The unrolled text the claim describes: the brace-wrapped repetition of
the (stripped) loop body for `i = a, ..., b-1`, with whole-word occurrences
of the loop variable substituted by the value of `i`. -/
def specUnrolled (var : List Char) (a b : ℕ) (body : List Char) : List Char :=
  ['\x7b', '\n'] ++
    (List.range' a (b - a)).flatMap
      (fun i => [' ', ' ', ' ', ' '] ++
        pyStrip (wordSub (pyStrip body) var (natChars i)) ++ ['\n']) ++
  ['\x7d']

/-- C9: `unroll_loop` rewrites a matched `for (int v = a; v < b; v++)` loop
into the repeated, variable-substituted body exactly when `0 < b - a ≤ 4`,
and returns the match unchanged when `b - a > 4` or `b - a ≤ 0`. -/
theorem loop_unrolling_bounded (var : List Char) (a b : ℕ) (body orig : List Char) :
    ((4 < (b : ℤ) - a ∨ (b : ℤ) - a ≤ 0) → unroll_loop var a b body orig = orig) ∧
    (0 < (b : ℤ) - a → (b : ℤ) - a ≤ 4 →
      unroll_loop var a b body orig = specUnrolled var a b body) := by
  constructor
  · intro h
    rw [unroll_loop, if_pos h]
  · intro h1 h2
    rw [unroll_loop, if_neg (by omega), specUnrolled]
    have key : ∀ (l : List ℕ) (lb : List Char),
        l.foldr (fun i acc =>
          (' ' :: ' ' :: ' ' :: ' ' :: pyStrip (wordSub lb var (natChars i))) ++
            ['\n'] ++ acc) ['\x7d'] =
        l.flatMap (fun i => [' ', ' ', ' ', ' '] ++
          pyStrip (wordSub lb var (natChars i)) ++ ['\n']) ++ ['\x7d'] := by
      intro l lb
      induction l with
      | nil => rfl
      | cons x xs ih =>
        simp only [List.foldr_cons, List.flatMap_cons, ih]
        simp
    rw [key]
    simp

/-- Witness for `loop_unrolling_bounded`: a three-iteration loop is unrolled
into the substituted bodies, and a nine-iteration loop is left unchanged. -/
theorem loop_unrolling_bounded_witness :
    unroll_loop "i".toList 0 3 " x += i; ".toList "orig".toList
        = specUnrolled "i".toList 0 3 " x += i; ".toList ∧
    unroll_loop "i".toList 0 9 " x += i; ".toList "orig".toList = "orig".toList ∧
    specUnrolled "i".toList 0 3 " x += i; ".toList
        = "\x7b\n    x += 0;\n    x += 1;\n    x += 2;\n\x7d".toList :=
  ⟨(loop_unrolling_bounded _ 0 3 _ _).2 (by decide) (by decide),
   (loop_unrolling_bounded _ 0 9 _ _).1 (by decide),
   by decide⟩

/-! ### Claim C3: the elite count -/

/-- The elite count the specification claims: the ceiling of
`populationSize / 3`, with a minimum of 1. -/
def specEliteCount (population_size : ℕ) : ℕ :=
  max 1 ⌈(population_size : ℚ) / 3⌉₊

/-- C3 counterexample: at `populationSize = 5` the code selects
`max(1, 5 // 3) = 1` elite from the evaluated population, not the
`⌈5/3⌉ = 2` the claim states. -/
theorem elite_count_cex :
    (select_best (List.replicate 5 default) (eliteCountOf 5)).length = 1 ∧
    specEliteCount 5 = 2 ∧
    (select_best (List.replicate 5 (default : Individual)) (eliteCountOf 5)).length ≠
      specEliteCount 5 := by
  have h2 : specEliteCount 5 = 2 := by
    rw [specEliteCount]
    have h5 : ((5 : ℕ) : ℚ) = (5 : ℚ) := by norm_num
    rw [h5]
    have : ⌈(5 : ℚ) / 3⌉₊ = 2 := by
      rw [Nat.ceil_eq_iff (by norm_num)]
      norm_num
    rw [this]
    decide
  refine ⟨by decide, h2, ?_⟩
  rw [h2]
  decide

/-- C3 (amended): for every generation `g ≥ 1` the number of elites selected
from generation `g-1` is `max(1, populationSize // 3)` — the floor of
`populationSize / 3` with a minimum of 1 — capped by the population size
(`select_best` is a `take`). -/
theorem elite_count_floor (population_size : ℕ) (population : List Individual) :
    (select_best population (eliteCountOf population_size)).length
      = min (max 1 (population_size / 3)) population.length := by
  rw [select_best, eliteCountOf, List.length_take]

/-! ### Claim C4: the rule name returned with an unchanged text -/

/-- The rule name returned by `apply_random_optimization` is always the name
of the randomly chosen rule, never `None` and never empty: every branch of
the if-chain returns `optimization`, and the chosen name is always one of the
five registered names. -/
theorem apply_random_optimization_snd (c : Fin OPTIMIZATIONS.length) (s : String) :
    (apply_random_optimization c s).2 = some (OPTIMIZATIONS.get c) := by
  fin_cases c <;> rfl

/-- Oracle with every compilation succeeding, constant folding always chosen,
and a fixed one-second run time. -/
def envC4 : Env where
  sourceText := ""
  ruleChoice := fun _ => ⟨0, by decide⟩
  parentChoice := fun _ => 0
  compileOk := fun _ => true
  runOut := fun _ _ => ⟨0, 1, 0, false, false⟩

/-- C4 counterexample: on the empty source text no registered rule changes
the text, yet one call to `apply_random_optimization` returns the chosen
rule's name (not an empty one), and the Individual built from it gets the
singleton `["constant_folding"]`, not `[]`. -/
theorem rule_name_cex :
    ((List.finRange OPTIMIZATIONS.length).all
      (fun c => decide ((apply_random_optimization c "").1 = ""))) = true ∧
    ((List.finRange OPTIMIZATIONS.length).all
      (fun c => decide ((apply_random_optimization c "").2 ≠ none) &&
                decide ((apply_random_optimization c "").2 ≠ some ""))) = true ∧
    (apply_random_optimization ⟨0, by decide⟩ "").2 = some "constant_folding" ∧
    ((create_initial_population envC4 {} "" "prog.c" "out" 1).1.map
      (fun i => i.optimizations)) = [["constant_folding"]] := by
  refine ⟨by decide, by decide, by decide, by decide⟩

/-- Invariant of the initial-population loop: every produced individual's
lineage is the singleton of a registered rule name. -/
theorem initPopGo_optimizations (env : Env) (sc sf od : String) :
    ∀ (is : List ℕ) (w : World) (acc : List Individual),
      (∀ ind ∈ acc, ∃ c : Fin OPTIMIZATIONS.length,
        ind.optimizations = [OPTIMIZATIONS.get c]) →
      ∀ ind ∈ (initPopGo env sc sf od is w acc).1,
        ∃ c : Fin OPTIMIZATIONS.length, ind.optimizations = [OPTIMIZATIONS.get c] := by
  intro is
  induction is with
  | nil =>
    intro w acc hacc ind hmem
    exact hacc ind hmem
  | cons i rest ih =>
    intro w acc hacc ind hmem
    rw [initPopGo] at hmem
    simp only [applyRandomOptW, compile_optimized_variant] at hmem
    by_cases hok : env.compileOk w.cmpT
    · rw [if_pos hok] at hmem
      refine ih _ _ ?_ ind hmem
      intro j hj
      rcases List.mem_append.mp hj with hj | hj
      · exact hacc j hj
      · rcases List.mem_singleton.mp hj with rfl
        refine ⟨env.ruleChoice w.ruleT, ?_⟩
        simp only [apply_random_optimization_snd]
    · rw [if_neg hok] at hmem
      exact ih _ _ hacc ind hmem

/-- C4 (amended): for every source text on which no registered rule has any
effect, one call to the Transformation Provider returns the text unchanged
together with the `name of the chosen rule` — which is never empty — so an
Individual built from it gets the one-element lineage `[ruleName]` (not an
empty list). -/
theorem rule_name_never_empty (choice : Fin OPTIMIZATIONS.length)
    (source_code : String) (env : Env) (w : World)
    (source_file output_dir : String) (population_size : ℕ) :
    (apply_random_optimization choice source_code).2
        = some (OPTIMIZATIONS.get choice) ∧
    OPTIMIZATIONS.get choice ≠ "" ∧
    ((∀ c : Fin OPTIMIZATIONS.length,
        (apply_random_optimization c source_code).1 = source_code) →
      (apply_random_optimization choice source_code).1 = source_code) ∧
    (∀ ind ∈ (create_initial_population env w env.sourceText source_file
        output_dir population_size).1,
      ∃ c : Fin OPTIMIZATIONS.length,
        ind.optimizations = [OPTIMIZATIONS.get c]) := by
  refine ⟨apply_random_optimization_snd choice source_code, ?_, ?_, ?_⟩
  · fin_cases choice <;> decide
  · intro h
    exact h choice
  · intro ind hmem
    exact initPopGo_optimizations env env.sourceText source_file output_dir
      _ _ _ (by intro j hj; cases hj) ind hmem

/-- Witness for `rule_name_never_empty` at the empty source text with the
constant-folding choice. -/
theorem rule_name_never_empty_witness :
    (apply_random_optimization ⟨0, by decide⟩ "").2 = some "constant_folding" ∧
    (apply_random_optimization ⟨0, by decide⟩ "").1 = "" := by
  have h := rule_name_never_empty ⟨0, by decide⟩ "" envC4 {} "prog.c" "out" 1
  exact ⟨h.1, h.2.2.1 (by decide)⟩

/-! ### Claim C7: fitness after evaluation -/

/-- Every individual coming out of the fitness-assignment pass carries the
measured outcome of some run-service call. -/
theorem evalAssign_mem (env : Env) :
    ∀ (pop : List Individual) (w : World) (ind : Individual),
      ind ∈ (evalAssign env pop w).1 →
      ∃ t x, ind.fitness = some (get_execution_time (env.runOut t x)) := by
  intro pop
  induction pop with
  | nil =>
    intro w ind hmem
    simp [evalAssign] at hmem
  | cons p ps ih =>
    intro w ind hmem
    rw [evalAssign] at hmem
    rcases List.mem_cons.mp hmem with rfl | hmem
    · exact ⟨w.runT, p.executable, rfl⟩
    · exact ih _ ind hmem

/-- C7: `get_execution_time` maps a timeout, any raised error, or a non-zero
exit to the infinite sentinel and a successful run to the elapsed wall-clock
seconds; hence, for a monotone clock, every individual's fitness after
`evaluate_population` is set, and is a non-negative rational or `⊤`. -/
theorem fitness_total_after_evaluation (r : RunOutcome) (env : Env)
    (population : List Individual) (w : World)
    (hclock : ∀ t x, (env.runOut t x).startTime ≤ (env.runOut t x).endTime) :
    (r.timedOut = true ∨ r.raisedErr = true ∨ r.returncode ≠ 0 →
        get_execution_time r = ⊤) ∧
    (r.timedOut = false → r.raisedErr = false → r.returncode = 0 →
        get_execution_time r = ((r.endTime - r.startTime : ℚ) : Fitness)) ∧
    (∀ ind ∈ (evaluate_population env population w).1,
        ind.fitness ≠ none ∧
        (ind.fitness = some ⊤ ∨
          ∃ q : ℚ, 0 ≤ q ∧ ind.fitness = some ((q : ℚ) : Fitness))) := by
  refine ⟨?_, ?_, ?_⟩
  · intro h
    rcases h with h | h | h <;> simp [get_execution_time, h]
  · intro h1 h2 h3
    simp [get_execution_time, h1, h2, h3]
  · intro ind hmem
    rw [evaluate_population] at hmem
    have hmem' : ind ∈ (evalAssign env population w).1 :=
      (List.perm_insertionSort _ _).mem_iff.mp hmem
    obtain ⟨t, x, hfit⟩ := evalAssign_mem env population w ind hmem'
    refine ⟨by simp [hfit], ?_⟩
    by_cases hto : (env.runOut t x).timedOut
    · left
      simp [hfit, get_execution_time, hto]
    · by_cases hre : (env.runOut t x).raisedErr
      · left
        simp [hfit, get_execution_time, hto, hre]
      · by_cases hrc : (env.runOut t x).returncode = 0
        · right
          refine ⟨(env.runOut t x).endTime - (env.runOut t x).startTime, ?_, ?_⟩
          · have := hclock t x
            linarith
          · simp [hfit, get_execution_time, hto, hre, hrc]
        · left
          simp [hfit, get_execution_time, hto, hre, hrc]

/-- Witness for `fitness_total_after_evaluation`: a non-zero exit maps to
`⊤`, and after evaluating a two-member population under a fixed one-second
clock every fitness is set and in range. -/
theorem fitness_total_after_evaluation_witness :
    get_execution_time ⟨0, 1, 1, false, false⟩ = ⊤ ∧
    (∀ ind ∈ (evaluate_population envC4 (List.replicate 2 default) ({} : World)).1,
        ind.fitness ≠ none ∧
        (ind.fitness = some ⊤ ∨
          ∃ q : ℚ, 0 ≤ q ∧ ind.fitness = some ((q : ℚ) : Fitness))) := by
  have hcl : ∀ t x, (envC4.runOut t x).startTime ≤ (envC4.runOut t x).endTime := by
    intro t x
    norm_num [envC4]
  exact ⟨(fitness_total_after_evaluation ⟨0, 1, 1, false, false⟩ envC4
            (List.replicate 2 default) {} hcl).1 (Or.inr (Or.inr (by decide))),
         (fitness_total_after_evaluation ⟨0, 1, 1, false, false⟩ envC4
            (List.replicate 2 default) {} hcl).2.2⟩

/-! ### Concrete oracle runs -/

/-- A run outcome with a zero start time and a successful exit measures
exactly its end time. -/
theorem get_exec_simple (q : ℚ) :
    get_execution_time ⟨0, q, 0, false, false⟩ = (q : Fitness) := by
  simp [get_execution_time]

/-- Concrete deterministic-choice oracle: constant folding always chosen,
parent 0, every compilation succeeds, and the `t`-th run call measures a
strictly decreasing time `100, 99, 98, ...` seconds. -/
def envC1 : Env where
  sourceText := ""
  ruleChoice := fun _ => ⟨0, by decide⟩
  parentChoice := fun _ => 0
  compileOk := fun _ => true
  runOut := fun t _ =>
    ⟨0, ([100, 99, 98, 97, 96, 95, 94, 93] : List ℚ).getD t 0, 0, false, false⟩

/-! ### Claim C1: the early-stop rule -/

/-- C1 (code bug): under `envC1` every generation strictly improves on the
previous one, and `maxGenerations = 5`, yet the loop halts at generation 3:
only populations for generations 0..3 are recorded (4 entries, not 6), even
though generation 3's best fitness (93) is strictly below generation 2's
(95).  The check on optimizer.py lines 194-199 builds its "window" from the
singleton `[population]`, so `len(set(...)) == 1` always holds once
`generation >= 3`, contradicting the source's own comment ("no improvement
for 3 consecutive generations") and the claim. -/
theorem early_stop_fires_despite_improvement :
    (evolve_code envC1 {} "prog.c" "out" ((1000 : ℚ) : Fitness) 5 2 10).allPops.length = 4 ∧
    fitKey (((evolve_code envC1 {} "prog.c" "out" ((1000 : ℚ) : Fitness) 5 2 10).allPops.getD 3
        []).headD default) <
      fitKey (((evolve_code envC1 {} "prog.c" "out" ((1000 : ℚ) : Fitness) 5 2 10).allPops.getD 2
        []).headD default) := by
  constructor <;>
  · simp [evolve_code, evolveLoop, create_initial_population, initPopGo, applyRandomOptW,
      apply_random_optimization, OPTIMIZATIONS, apply_constant_folding, foldScan,
      compile_optimized_variant, evaluate_population, evalAssign, envC1, get_exec_simple,
      select_best, eliteCountOf, create_next_generation, nextGenGo, fitKey,
      List.insertionSort, List.orderedInsert, cleanup_variants, baseNameOf, pathJoin]
    decide

/-! ### Claim C2: idempotence of evaluation on elites -/

/-- C2 counterexample: in the `envC1` run with one loop generation, the
generation-0 best (variant `"1"`, measured 99 s) is carried over as the sole
elite, but the generation-1 evaluation re-runs it and overwrites its fitness
with the fresh measurement 98 s — the elite is re-run and its fitness
changes. -/
theorem evaluate_reruns_elites_cex :
    ((evolve_code envC1 {} "prog.c" "out" ((1000 : ℚ) : Fitness) 1 2 10).allPops.getD 0
        []).map (fun i => (i.variant_id, i.fitness)) =
      [("1", some ((99 : ℚ) : Fitness)), ("0", some ((100 : ℚ) : Fitness))] ∧
    ((evolve_code envC1 {} "prog.c" "out" ((1000 : ℚ) : Fitness) 1 2 10).allPops.getD 1
        []).map (fun i => (i.variant_id, i.fitness)) =
      [("1_1", some ((97 : ℚ) : Fitness)), ("1", some ((98 : ℚ) : Fitness))] := by
  constructor <;>
  · simp [evolve_code, evolveLoop, create_initial_population, initPopGo, applyRandomOptW,
      apply_random_optimization, OPTIMIZATIONS, apply_constant_folding, foldScan,
      compile_optimized_variant, evaluate_population, evalAssign, envC1, get_exec_simple,
      select_best, eliteCountOf, create_next_generation, nextGenGo, fitKey,
      List.insertionSort, List.orderedInsert, cleanup_variants, baseNameOf, pathJoin]
    decide

/-- The fitness-assignment pass consumes one run-service call per individual
(the counter advances by the population length). -/
theorem evalAssign_runT (env : Env) :
    ∀ (pop : List Individual) (w : World),
      (evalAssign env pop w).2.runT = w.runT + pop.length := by
  intro pop
  induction pop with
  | nil =>
    intro w
    simp [evalAssign]
  | cons p ps ih =>
    intro w
    rw [evalAssign]
    simp [ih]
    omega

/-- C2 (amended): `evaluate_population` invokes the Build/Run Service's run
operation once for every individual of the population — elites with an
existing fitness included — and every individual's fitness afterwards is the
outcome of a run-service call, so a carried-over elite keeps its value only
when the service happens to return the same measurement. -/
theorem evaluate_measures_every_individual (env : Env)
    (population : List Individual) (w : World) :
    (evaluate_population env population w).2.runT = w.runT + population.length ∧
    ∀ ind ∈ (evaluate_population env population w).1,
      ∃ t x, ind.fitness = some (get_execution_time (env.runOut t x)) := by
  constructor
  · rw [evaluate_population]
    exact evalAssign_runT env population w
  · intro ind hmem
    rw [evaluate_population] at hmem
    exact evalAssign_mem env population w ind
      ((List.perm_insertionSort _ _).mem_iff.mp hmem)

/-! ### Claim C5: the --keep-all flag -/

/-- C5 (code bug): `--keep-all` is parsed (main.py line 22) and printed, but
never passed to `evolve_code` or `cleanup_variants`: runs with the flag set
and cleared are identical, and a concrete run with `--keep-all` still deletes
generated variant files. -/
theorem keep_all_ignored :
    (∀ (env : Env) (source_file output_dir : String)
        (generations population fuel : ℕ) (b1 b2 : Bool),
      main_run env source_file output_dir generations population b1 fuel =
      main_run env source_file output_dir generations population b2 fuel) ∧
    (main_run envC1 "prog.c" "out" 5 2 true 10).world.removed ≠ [] := by
  constructor
  · intro env sf od g p fuel b1 b2
    rfl
  · simp [main_run, evolve_code, evolveLoop, create_initial_population, initPopGo,
      applyRandomOptW, apply_random_optimization, OPTIMIZATIONS, apply_constant_folding,
      foldScan, compile_optimized_variant, compile_original, evaluate_population,
      evalAssign, envC1, get_exec_simple, select_best, eliteCountOf,
      create_next_generation, nextGenGo, fitKey, List.insertionSort,
      List.orderedInsert, cleanup_variants, baseNameOf, fileNameOf, pathJoin,
      startsWithSub]
    decide

/-! ### Claim C6: termination with no winner after generation 0 -/

/-- Like `envC1`, but the second compilation (the generation-0 variant 1)
fails. -/
def envC6 : Env := { envC1 with compileOk := fun t => decide (t ≠ 1) }

/-- C6 counterexample: with `originalTime = 50` every measured variant is
slower, so the run terminates with no winner; but variant 1's source file was
written before its compilation failed, and the cleanup loop (optimizer.py
lines 163-169) only deletes the files of the individuals that made it into
the population — `out/prog_variant_1.c` is created and never removed, so not
every generation-0 variant source is removed. -/
theorem gen0_abort_leaves_failed_source_cex :
    (evolve_code envC6 {} "prog.c" "out" ((50 : ℚ) : Fitness) 5 2 10).result = none ∧
    "out/prog_variant_1.c" ∈
      (evolve_code envC6 {} "prog.c" "out" ((50 : ℚ) : Fitness) 5 2 10).world.created ∧
    "out/prog_variant_1.c" ∉
      (evolve_code envC6 {} "prog.c" "out" ((50 : ℚ) : Fitness) 5 2 10).world.removed ∧
    (evolve_code envC6 {} "prog.c" "out" ((50 : ℚ) : Fitness) 5 2 10).world.removed =
      ["out/prog_variant_0.c", "out/prog_variant_0"] := by
  refine ⟨?_, ?_, ?_, ?_⟩ <;>
  · simp [evolve_code, evolveLoop, create_initial_population, initPopGo, applyRandomOptW,
      apply_random_optimization, OPTIMIZATIONS, apply_constant_folding, foldScan,
      compile_optimized_variant, evaluate_population, evalAssign, envC6, envC1,
      get_exec_simple, select_best, eliteCountOf, create_next_generation, nextGenGo,
      fitKey, List.insertionSort, List.orderedInsert, cleanup_variants, baseNameOf,
      pathJoin]
    decide

/-- Unfolding of the deletion fold on optimizer.py lines 163-169. -/
theorem foldl_paths (l : List Individual) :
    ∀ init : List String,
      l.foldl (fun acc ind => acc ++ [ind.source_path, ind.executable]) init
        = init ++ l.flatMap (fun i => [i.source_path, i.executable]) := by
  induction l with
  | nil =>
    intro init
    simp
  | cons p ps ih =>
    intro init
    simp [ih]

/-- C6 (amended): if generation 0 is nonempty and its best fitness is at
least the baseline's `originalTime`, the run terminates immediately with no
winner and the source and executable of every *compiled* (evaluated)
generation-0 variant are removed; sources of variants whose compilation
failed were written but are not removed. -/
theorem gen0_abort_removes_evaluated_variants (env : Env) (w : World)
    (source_file output_dir : String) (original_time : Fitness)
    (max_generations population_size fuel : ℕ)
    (hne : (create_initial_population env w env.sourceText source_file output_dir
        population_size).1 ≠ [])
    (habort : original_time ≤ fitKey ((evaluate_population env
        (create_initial_population env w env.sourceText source_file output_dir
          population_size).1
        (create_initial_population env w env.sourceText source_file output_dir
          population_size).2).1.headD default)) :
    (evolve_code env w source_file output_dir original_time max_generations
        population_size fuel).result = none ∧
    ∀ ind ∈ (evaluate_population env
        (create_initial_population env w env.sourceText source_file output_dir
          population_size).1
        (create_initial_population env w env.sourceText source_file output_dir
          population_size).2).1,
      ind.source_path ∈ (evolve_code env w source_file output_dir original_time
          max_generations population_size fuel).world.removed ∧
      ind.executable ∈ (evolve_code env w source_file output_dir original_time
          max_generations population_size fuel).world.removed := by
  rw [evolve_code]
  rcases hcp : create_initial_population env w env.sourceText source_file output_dir
    population_size with ⟨pop, w1⟩
  rw [hcp] at hne habort
  simp only at hne habort
  rcases hev : evaluate_population env pop w1 with ⟨pop0, w2⟩
  rw [hev] at habort
  simp only at habort
  simp only [hev, if_neg hne, if_pos habort]
  refine ⟨trivial, ?_⟩
  intro ind hmem
  rw [foldl_paths]
  simp only [List.nil_append]
  exact ⟨List.mem_append_right _ (List.mem_flatMap.mpr ⟨ind, hmem, by simp⟩),
         List.mem_append_right _ (List.mem_flatMap.mpr ⟨ind, hmem, by simp⟩)⟩

/-- Witness for `gen0_abort_removes_evaluated_variants`: the `envC1` run with
`originalTime = 50` (faster than every variant) aborts after generation 0 and
removes both files of each evaluated variant. -/
theorem gen0_abort_removes_evaluated_variants_witness :
    (evolve_code envC1 {} "prog.c" "out" ((50 : ℚ) : Fitness) 5 2 10).result = none ∧
    ∀ ind ∈ (evaluate_population envC1
        (create_initial_population envC1 {} envC1.sourceText "prog.c" "out" 2).1
        (create_initial_population envC1 {} envC1.sourceText "prog.c" "out" 2).2).1,
      ind.source_path ∈ (evolve_code envC1 {} "prog.c" "out" ((50 : ℚ) : Fitness)
          5 2 10).world.removed ∧
      ind.executable ∈ (evolve_code envC1 {} "prog.c" "out" ((50 : ℚ) : Fitness)
          5 2 10).world.removed := by
  refine gen0_abort_removes_evaluated_variants envC1 {} "prog.c" "out"
    ((50 : ℚ) : Fitness) 5 2 10 (by decide) ?_
  simp [create_initial_population, initPopGo, applyRandomOptW,
    apply_random_optimization, OPTIMIZATIONS, apply_constant_folding, foldScan,
    compile_optimized_variant, evaluate_population, evalAssign, envC1,
    get_exec_simple, fitKey, List.insertionSort, List.orderedInsert, baseNameOf,
    pathJoin]
  decide

/-! ### Claim C8: elitism monotonicity -/

/-- Appending an element that is below the last element preserves the
adjacent-non-increase property (indexed with `getD`). -/
theorem adjLE_append {α : Type} (k : α → Fitness) (d : α) (l : List α) (x : α)
    (h : ∀ i, i + 1 < l.length → k (l.getD (i+1) d) ≤ k (l.getD i d))
    (hx : ∀ last, l.getLast? = some last → k x ≤ k last) :
    ∀ i, i + 1 < (l ++ [x]).length →
      k ((l ++ [x]).getD (i+1) d) ≤ k ((l ++ [x]).getD i d) := by
  intro i hi
  rw [List.length_append, List.length_singleton] at hi
  by_cases hlt : i + 1 < l.length
  · rw [List.getD_append _ _ _ _ hlt, List.getD_append _ _ _ _ (by omega)]
    exact h i hlt
  · -- i + 1 = l.length: the new element against the old last
    have hieq : i + 1 = l.length := by omega
    have hne : l ≠ [] := by
      intro hnil
      rw [hnil] at hieq
      simp at hieq
    have hx' : (l ++ [x]).getD (i+1) d = x := by
      rw [hieq, List.getD_eq_getElem?_getD, List.getElem?_concat_length]
      rfl
    have hlast : l.getLast? = some (l.getD i d) := by
      rw [List.getLast?_eq_getElem?, List.getD_eq_getElem?_getD]
      have hb : i < l.length := by omega
      rw [List.getElem?_eq_getElem (by omega : l.length - 1 < l.length),
        List.getElem?_eq_getElem hb]
      have : l.length - 1 = i := by omega
      simp [this]
    rw [hx', List.getD_append _ _ _ _ (by omega : i < l.length)]
    exact hx _ hlast

/-- The total order used by `evaluate_population`'s sort. -/
instance : IsTotal Individual (fun a b => fitKey a ≤ fitKey b) :=
  ⟨fun a b => le_total _ _⟩

/-- The sort order of `evaluate_population` is transitive. -/
instance : IsTrans Individual (fun a b => fitKey a ≤ fitKey b) :=
  ⟨fun _ _ _ hab hbc => le_trans hab hbc⟩

/-- The head of a list sorted ascending by fitness is a fitness minimum. -/
theorem sorted_head_le (l : List Individual)
    (h : List.Sorted (fun a b => fitKey a ≤ fitKey b) l) :
    ∀ x ∈ l, fitKey (l.headD default) ≤ fitKey x := by
  cases l with
  | nil => intro x hx; cases hx
  | cons a rest =>
    intro x hx
    rcases List.mem_cons.mp hx with rfl | hx
    · exact le_refl _
    · exact (List.pairwise_cons.mp h).1 x hx

/-- After evaluation the population head has minimal fitness. -/
theorem evaluate_head_min (env : Env) (pop : List Individual) (w : World) :
    ∀ x ∈ (evaluate_population env pop w).1,
      fitKey ((evaluate_population env pop w).1.headD default) ≤ fitKey x := by
  rw [evaluate_population]
  exact sorted_head_le _ (List.sorted_insertionSort _ _)

/-- Under a deterministic run service, the assignment pass is a pointwise
map: each individual's fitness becomes the measurement of its executable. -/
theorem evalAssign_det (env : Env)
    (hdet : ∀ t s x, env.runOut t x = env.runOut s x) :
    ∀ (pop : List Individual) (w : World),
      (evalAssign env pop w).1 = pop.map (fun ind =>
        { ind with fitness := some (get_execution_time (env.runOut 0 ind.executable)) }) := by
  intro pop
  induction pop with
  | nil => intro w; rfl
  | cons p ps ih =>
    intro w
    rw [evalAssign]
    simp only [List.map_cons, ih, hdet w.runT 0]

/-- Under a deterministic run service, every member of an evaluated
population carries the measurement of its own executable. -/
theorem evaluate_mem_fitness (env : Env)
    (hdet : ∀ t s x, env.runOut t x = env.runOut s x)
    (pop : List Individual) (w : World) :
    ∀ x ∈ (evaluate_population env pop w).1,
      x.fitness = some (get_execution_time (env.runOut 0 x.executable)) := by
  intro x hx
  rw [evaluate_population] at hx
  have hx' := (List.perm_insertionSort _ _).mem_iff.mp hx
  rw [evalAssign_det env hdet] at hx'
  obtain ⟨y, _, rfl⟩ := List.mem_map.mp hx'
  rfl

/-- Under a deterministic run service, the evaluated population contains the
re-measured copy of every input individual. -/
theorem evaluate_mem_of_mem (env : Env)
    (hdet : ∀ t s x, env.runOut t x = env.runOut s x)
    (pop : List Individual) (w : World) (ind : Individual) (hind : ind ∈ pop) :
    { ind with fitness := some (get_execution_time (env.runOut 0 ind.executable)) }
      ∈ (evaluate_population env pop w).1 := by
  rw [evaluate_population]
  refine (List.perm_insertionSort _ _).mem_iff.mpr ?_
  rw [evalAssign_det env hdet]
  exact List.mem_map.mpr ⟨ind, hind, rfl⟩

/-- The refill loop only appends: the accumulator's members stay in the
output. -/
theorem nextGenGo_mem (env : Env) (best : List Individual)
    (sf od : String) (gen ps : ℕ) :
    ∀ (fuel : ℕ) (w : World) (acc : List Individual),
      ∀ x ∈ acc, x ∈ (nextGenGo env best sf od gen ps fuel w acc).1 := by
  intro fuel
  induction fuel with
  | zero =>
    intro w acc x hx
    rw [nextGenGo]
    exact hx
  | succ f ih =>
    intro w acc x hx
    rw [nextGenGo]
    by_cases hfull : ps ≤ acc.length
    · rw [if_pos hfull]
      exact hx
    · rw [if_neg hfull]
      simp only [applyRandomOptW, compile_optimized_variant]
      by_cases hok : env.compileOk w.cmpT
      · simp only [if_pos hok]
        exact ih _ _ x (List.mem_append_left _ hx)
      · simp only [if_neg hok]
        exact ih _ _ x hx

/-- `create_next_generation` keeps every elite in the next generation. -/
theorem create_next_generation_mem (env : Env) (w : World)
    (best : List Individual) (sf od : String) (gen ps fuel : ℕ) :
    ∀ x ∈ best, x ∈ (create_next_generation env w best sf od gen ps fuel).1 := by
  rw [create_next_generation]
  exact nextGenGo_mem env best sf od gen ps fuel w best

/-- A nonempty list contains its default-headed head. -/
theorem headD_mem {p : List Individual} (hp : p ≠ []) : p.headD default ∈ p := by
  cases p with
  | nil => exact absurd rfl hp
  | cons a r => exact List.mem_cons_self a r

/-- The previous best individual is among the selected elites: at least one
elite is always taken. -/
theorem headD_mem_select (p : List Individual) (hp : p ≠ []) (ps : ℕ) :
    p.headD default ∈ select_best p (eliteCountOf ps) := by
  cases p with
  | nil => exact absurd rfl hp
  | cons a r =>
    rw [select_best]
    have hk : eliteCountOf ps = (eliteCountOf ps - 1) + 1 := by
      rw [eliteCountOf]
      omega
    rw [hk, List.take_succ_cons]
    exact List.mem_cons_self _ _

/-- One loop iteration under a deterministic run service: the best fitness of
the freshly evaluated next generation is at most the previous generation's
best fitness (the re-measured elite is present, and the sorted head is
minimal). -/
theorem step_head_le (env : Env)
    (hdet : ∀ t s x, env.runOut t x = env.runOut s x)
    (sf od : String) (gen ps fuel : ℕ) (p : List Individual) (w w' : World)
    (hp : p ≠ [])
    (hpf : ∀ x ∈ p, x.fitness = some (get_execution_time (env.runOut 0 x.executable))) :
    fitKey (((evaluate_population env
        (create_next_generation env w (select_best p (eliteCountOf ps)) sf od
          gen ps fuel).1 w').1).headD default) ≤ fitKey (p.headD default) := by
  set elite0 := p.headD default with helite
  have h1 : elite0 ∈ select_best p (eliteCountOf ps) := headD_mem_select p hp ps
  have h2 : elite0 ∈ (create_next_generation env w
      (select_best p (eliteCountOf ps)) sf od gen ps fuel).1 :=
    create_next_generation_mem env w _ sf od gen ps fuel elite0 h1
  have h3 := evaluate_mem_of_mem env hdet _ w' elite0 h2
  have h4 := evaluate_head_min env (create_next_generation env w
      (select_best p (eliteCountOf ps)) sf od gen ps fuel).1 w' _ h3
  have h5 : fitKey { elite0 with
      fitness := some (get_execution_time (env.runOut 0 elite0.executable)) } =
      fitKey elite0 := by
    rw [fitKey, fitKey, hpf elite0 (headD_mem hp)]
  rw [h5] at h4
  exact h4

/-- The evaluated next generation is nonempty (it contains the re-measured
elite). -/
theorem step_ne (env : Env)
    (hdet : ∀ t s x, env.runOut t x = env.runOut s x)
    (sf od : String) (gen ps fuel : ℕ) (p : List Individual) (w w' : World)
    (hp : p ≠ []) :
    (evaluate_population env
        (create_next_generation env w (select_best p (eliteCountOf ps)) sf od
          gen ps fuel).1 w').1 ≠ [] := by
  have h1 : p.headD default ∈ select_best p (eliteCountOf ps) := headD_mem_select p hp ps
  have h2 := create_next_generation_mem env w _ sf od gen ps fuel _ h1
  have h3 := evaluate_mem_of_mem env hdet _ w' _ h2
  exact List.ne_nil_of_mem h3

/-- Unfolding of one loop iteration (the pair destructurings are
definitional). -/
theorem evolveLoop_succ_eq (env : Env) (sf od : String) (ps fuel gl gen : ℕ)
    (p : List Individual) (best : Individual) (bh : List Individual)
    (aps : List (List Individual)) (w : World) :
    evolveLoop env sf od ps fuel (gl + 1) gen p best bh aps w =
      (let next := (create_next_generation env w
          (select_best p (eliteCountOf ps)) sf od gen ps fuel).1
       let w1 := (create_next_generation env w
          (select_best p (eliteCountOf ps)) sf od gen ps fuel).2
       let q := (evaluate_population env next w1).1
       let w2 := (evaluate_population env next w1).2
       let cur := q.headD default
       let best' := if fitKey cur < fitKey best then cur else best
       if 3 ≤ gen ∧
           (([q].map (fun g => (g.headD default).fitness)).dedup.length = 1) then
         (best', bh ++ [best'], aps ++ [q], w2)
       else evolveLoop env sf od ps fuel gl (gen + 1) q best' (bh ++ [best'])
         (aps ++ [q]) w2) := rfl

/-- The generation loop preserves and extends the two monotonicity
invariants: adjacent recorded generations have non-increasing best fitness,
and the best-so-far trace is non-increasing. -/
theorem evolveLoop_mono (env : Env) (sf od : String) (ps fuel : ℕ)
    (hdet : ∀ t s x, env.runOut t x = env.runOut s x) :
    ∀ (gl gen : ℕ) (p : List Individual) (best : Individual)
      (bh : List Individual) (aps : List (List Individual)) (w : World),
      p ≠ [] →
      (∀ x ∈ p, x.fitness = some (get_execution_time (env.runOut 0 x.executable))) →
      aps.getLast? = some p →
      bh.getLast? = some best →
      (∀ i, i + 1 < aps.length →
        fitKey ((aps.getD (i+1) []).headD default) ≤
          fitKey ((aps.getD i []).headD default)) →
      (∀ i, i + 1 < bh.length →
        fitKey (bh.getD (i+1) default) ≤ fitKey (bh.getD i default)) →
      (∀ i, i + 1 < (evolveLoop env sf od ps fuel gl gen p best bh aps w).2.2.1.length →
        fitKey (((evolveLoop env sf od ps fuel gl gen p best bh aps w).2.2.1.getD
            (i+1) []).headD default) ≤
          fitKey (((evolveLoop env sf od ps fuel gl gen p best bh aps w).2.2.1.getD
            i []).headD default)) ∧
      (∀ i, i + 1 < (evolveLoop env sf od ps fuel gl gen p best bh aps w).2.1.length →
        fitKey ((evolveLoop env sf od ps fuel gl gen p best bh aps w).2.1.getD
            (i+1) default) ≤
          fitKey ((evolveLoop env sf od ps fuel gl gen p best bh aps w).2.1.getD
            i default)) := by
  intro gl
  induction gl with
  | zero =>
    intro gen p best bh aps w _ _ _ _ hAdjP hAdjB
    exact ⟨hAdjP, hAdjB⟩
  | succ gl ih =>
    intro gen p best bh aps w hp hpf hlastP hlastB hAdjP hAdjB
    rw [evolveLoop_succ_eq]
    set next := (create_next_generation env w
        (select_best p (eliteCountOf ps)) sf od gen ps fuel).1 with hnext
    set w1 := (create_next_generation env w
        (select_best p (eliteCountOf ps)) sf od gen ps fuel).2 with hw1
    set q := (evaluate_population env next w1).1 with hq
    set w2 := (evaluate_population env next w1).2 with hw2
    set cur := q.headD default with hcur
    set best' := if fitKey cur < fitKey best then cur else best with hbest'
    have hqhead : fitKey (q.headD default) ≤ fitKey (p.headD default) := by
      rw [hq, hnext, hw1]
      exact step_head_le env hdet sf od gen ps fuel p w _ hp hpf
    have hqne : q ≠ [] := by
      rw [hq, hnext, hw1]
      exact step_ne env hdet sf od gen ps fuel p w _ hp
    have hqinv : ∀ x ∈ q, x.fitness =
        some (get_execution_time (env.runOut 0 x.executable)) := by
      rw [hq]
      exact evaluate_mem_fitness env hdet next w1
    have hbb : fitKey best' ≤ fitKey best := by
      rw [hbest']
      split
      · next hlt => exact le_of_lt hlt
      · exact le_refl _
    have hnewP : ∀ i, i + 1 < (aps ++ [q]).length →
        fitKey (((aps ++ [q]).getD (i+1) []).headD default) ≤
          fitKey (((aps ++ [q]).getD i []).headD default) := by
      refine adjLE_append (fun g => fitKey (g.headD default)) [] aps q hAdjP ?_
      intro last hlast
      rw [hlastP] at hlast
      injection hlast with hlast
      rw [← hlast]
      exact hqhead
    have hnewB : ∀ i, i + 1 < (bh ++ [best']).length →
        fitKey ((bh ++ [best']).getD (i+1) default) ≤
          fitKey ((bh ++ [best']).getD i default) := by
      refine adjLE_append fitKey default bh best' hAdjB ?_
      intro last hlast
      rw [hlastB] at hlast
      injection hlast with hlast
      rw [← hlast]
      exact hbb
    by_cases hstop : 3 ≤ gen ∧
        (([q].map (fun g => (g.headD default).fitness)).dedup.length = 1)
    · rw [if_pos hstop]
      exact ⟨hnewP, hnewB⟩
    · rw [if_neg hstop]
      exact ih (gen + 1) q best' (bh ++ [best']) (aps ++ [q]) w2 hqne hqinv
        (by rw [List.getLast?_concat]) (by rw [List.getLast?_concat]) hnewP hnewB

/-- The fitness-assignment pass preserves the population length. -/
theorem evalAssign_length (env : Env) :
    ∀ (pop : List Individual) (w : World),
      (evalAssign env pop w).1.length = pop.length := by
  intro pop
  induction pop with
  | nil => intro w; rfl
  | cons p ps ih =>
    intro w
    rw [evalAssign]
    simp [ih]

/-- Evaluating a nonempty population yields a nonempty population. -/
theorem evaluate_ne (env : Env) (pop : List Individual) (w : World)
    (h : pop ≠ []) : (evaluate_population env pop w).1 ≠ [] := by
  rcases hass : evalAssign env pop w with ⟨p, w'⟩
  have hplen : p.length = pop.length := by
    have hl := evalAssign_length env pop w
    rw [hass] at hl
    exact hl
  rw [evaluate_population, hass]
  intro hnil
  simp only at hnil
  have hperm := (List.perm_insertionSort
    (fun a b : Individual => fitKey a ≤ fitKey b) p).length_eq
  rw [hnil] at hperm
  simp at hperm
  rw [← hperm] at hplen
  exact h (List.eq_nil_of_length_eq_zero hplen.symm)

/-- C8: under a deterministic Build/Run Service, the best fitness of each
recorded generation is at most the previous generation's best fitness, and
the best-so-far trace never worsens. -/
theorem elitism_monotonicity (env : Env) (w : World)
    (source_file output_dir : String) (original_time : Fitness)
    (max_generations population_size fuel : ℕ)
    (hdet : ∀ t s x, env.runOut t x = env.runOut s x) :
    (∀ i, i + 1 < (evolve_code env w source_file output_dir original_time
        max_generations population_size fuel).allPops.length →
      fitKey (((evolve_code env w source_file output_dir original_time
          max_generations population_size fuel).allPops.getD (i+1) []).headD default) ≤
        fitKey (((evolve_code env w source_file output_dir original_time
          max_generations population_size fuel).allPops.getD i []).headD default)) ∧
    (∀ i, i + 1 < (evolve_code env w source_file output_dir original_time
        max_generations population_size fuel).bestHist.length →
      fitKey ((evolve_code env w source_file output_dir original_time
          max_generations population_size fuel).bestHist.getD (i+1) default) ≤
        fitKey ((evolve_code env w source_file output_dir original_time
          max_generations population_size fuel).bestHist.getD i default)) := by
  rw [evolve_code]
  rcases hcp : create_initial_population env w env.sourceText source_file
    output_dir population_size with ⟨pop, w1⟩
  by_cases hne : pop = []
  · simp only [hcp, if_pos hne]
    constructor <;> (intro i hi; simp at hi)
  · rcases hev : evaluate_population env pop w1 with ⟨pop0, w2⟩
    simp only [hcp, hev, if_neg hne]
    have hpop0 : pop0 = (evaluate_population env pop w1).1 := by rw [hev]
    have hpop0ne : pop0 ≠ [] := by
      rw [hpop0]
      exact evaluate_ne env pop w1 hne
    have hinv : ∀ x ∈ pop0, x.fitness =
        some (get_execution_time (env.runOut 0 x.executable)) := by
      rw [hpop0]
      exact evaluate_mem_fitness env hdet pop w1
    by_cases habort : original_time ≤ fitKey (pop0.headD default)
    · rw [if_pos habort]
      constructor <;> (intro i hi; simp at hi)
    · rw [if_neg habort]
      rcases hLoop : evolveLoop env source_file output_dir population_size fuel
        max_generations 1 pop0 (pop0.headD default) [pop0.headD default] [pop0] w2
        with ⟨bestF, bh, aps, w3⟩
      have hmono := evolveLoop_mono env source_file output_dir population_size
        fuel hdet max_generations 1 pop0 (pop0.headD default)
        [pop0.headD default] [pop0] w2 hpop0ne hinv rfl rfl
        (by intro i hi; simp at hi)
        (by intro i hi; simp at hi)
      rw [hLoop] at hmono
      simp only [hLoop]
      exact hmono

/-- Deterministic oracle for the monotonicity witness: the run service
depends only on the executable path. -/
def envC8 : Env :=
  { envC1 with runOut := fun _ x =>
      ⟨0, if x = "out/prog_variant_0" then 80 else 90, 0, false, false⟩ }

/-- Witness for `elitism_monotonicity` at a concrete deterministic run. -/
theorem elitism_monotonicity_witness :
    (∀ i, i + 1 < (evolve_code envC8 {} "prog.c" "out" ((1000 : ℚ) : Fitness)
        5 2 10).allPops.length →
      fitKey (((evolve_code envC8 {} "prog.c" "out" ((1000 : ℚ) : Fitness)
          5 2 10).allPops.getD (i+1) []).headD default) ≤
        fitKey (((evolve_code envC8 {} "prog.c" "out" ((1000 : ℚ) : Fitness)
          5 2 10).allPops.getD i []).headD default)) ∧
    (∀ i, i + 1 < (evolve_code envC8 {} "prog.c" "out" ((1000 : ℚ) : Fitness)
        5 2 10).bestHist.length →
      fitKey ((evolve_code envC8 {} "prog.c" "out" ((1000 : ℚ) : Fitness)
          5 2 10).bestHist.getD (i+1) default) ≤
        fitKey ((evolve_code envC8 {} "prog.c" "out" ((1000 : ℚ) : Fitness)
          5 2 10).bestHist.getD i default)) :=
  elitism_monotonicity envC8 {} "prog.c" "out" ((1000 : ℚ) : Fitness) 5 2 10
    (fun _ _ _ => rfl)
